import Mathlib

/-!
# A shallow embedding of the LPeg pattern-matching virtual machine (lpvm.c)

This file embeds the opcode interpreter `match` of `src/lpvm.c` — a PEG
virtual machine extended with direct left recursion and match-time
(dynamic) captures — as an executable step function on an explicit machine
state, and proves properties of the interpreter over that embedding.

Modelling conventions:
* the subject is addressed by byte offsets from `origin`; the cursor `s`,
  instruction addresses and saved positions are `Int` (C pointer
  differences), with `origin = 0` and `limit = len`;
* the C `Instruction` union word is modelled as a record carrying every
  field view (`code`, `aux`, `key`, `offset`, `buff`): reading a field of a
  union word is reading some value of that field's type;
* the capture array together with its watermark `captop` is modelled as the
  list of its first `captop` entries; `ndyncap` dynamic-capture values held
  on the host (Lua) stack are the list `dyn`;
* the per-match memo table for left recursion (the `Lambda` Lua table of
  lpvm.c) is an association list keyed by the integer
  `(pA - program) * maxpointer + (s0 - origin)`;
* the capture-stack side structure (`CaptureStack` plus the Lua-side arrays
  of saved capture lists and saved dynamic-capture values) is the list
  `capStack` of saved `(capture log, dynamic values)` pairs;
* C `assert`s (fatal in debug builds, undefined in release builds) and the
  `luaL_error` calls are modelled as fatal results `.err`;
* the byte read one past a string's end is the terminating NUL that the
  host (Lua) guarantees; the machine is nevertheless parametric in the
  byte-fetch function `get` so that independence from out-of-range data can
  be stated.
-/

namespace LPVM

/-- VM opcodes, from `lpvm.h`. -/
inductive Opcode
  | IAny | IChar | ISet | ITestAny | ITestChar | ITestSet | ISpan | IUTFR
  | IBehind | IRet | IEnd | IChoice | IJmp | ICall | IOpenCall | ICommit
  | IPartialCommit | IBackCommit | IFailTwice | IFail | IGiveup
  | IFullCapture | IOpenCapture | ICloseCapture | ICloseRunTime | IEmpty
  deriving DecidableEq

/-- Capture kinds.  Modelled from the standard `lpcap.h` enum (that header
is not among the given sources); the interpreter distinguishes `Cclose`,
`Cruntime` and `Cgroup`. -/
inductive CapKind
  | Cclose | Cposition | Cconst | Cbackref | Carg | Csimple | Ctable
  | Cfunction | Cquery | Cstring | Cnum | Csubst | Cfold | Cruntime | Cgroup
  deriving DecidableEq

/-- One capture event: position, host-side index, kind and size
(0 = open, 1 = closed/runtime, n+1 = full capture of n bytes). -/
structure Capture where
  s : Int
  idx : Int
  kind : CapKind
  siz : Nat
  deriving DecidableEq

/-- A host (Lua) value as far as the interpreter inspects it:
falsy `nil`, a boolean, or a number. -/
inductive LuaVal
  | nil
  | boolean (b : Bool)
  | num (n : Int)
  deriving DecidableEq

/-- A program position: either an address in the instruction array, or the
static out-of-program `giveup` instruction that only the sentinel stack
frame points to. -/
inductive PC
  | giveup
  | idx (i : Int)
  deriving DecidableEq

/-- The `X` field of a stack frame: `NULL` for choice and ordinary call
frames, the `LRFAIL` sentinel or a best seed position for left-recursive
frames. -/
inductive XV
  | nul
  | lrfail
  | pos (x : Int)
  deriving DecidableEq

/-- A backtrack/call stack frame (struct `Stack` of lpvm.c).  `s = none`
models the NULL saved position of ordinary call frames.  `caplevel` and
`pA` are meaningless (left unset by the C code) for the frame shapes that
do not use them; the model stores 0 there. -/
structure Frame where
  s : Option Int
  p : PC
  caplevel : Nat
  X : XV
  pA : Int
  deriving DecidableEq

/-- The capture state snapshotted into a memo entry by `putcapturestolambda`:
the seed's capture log and its dynamic-capture values. -/
structure Snapshot where
  caps : List Capture
  dyn : List LuaVal
  deriving DecidableEq

/-- A memo-table entry for a left-recursive head instance: current best
consumed length `X` (`-1` = `LRFAIL`), the precedence level `k` stored at
creation, and the snapshot fields set by `putcapturestolambda` (absent
until the first growth iteration). -/
structure MemoEntry where
  X : Int
  k : Nat
  commit : Option Snapshot
  deriving DecidableEq

/-- An instruction word.  The C `Instruction` is a union of these views;
a record of all views models reading any field of any word. -/
structure Instr where
  code : Opcode
  aux : Nat
  key : Int
  offset : Int
  buff : Nat → Bool

/-- The mutable interpreter state between two instruction dispatches. -/
structure State where
  s : Int
  p : PC
  stack : List Frame
  caps : List Capture
  dyn : List LuaVal
  memo : List (Int × MemoEntry)
  capStack : List (List Capture × List LuaVal)
  deriving DecidableEq

/-- The immutable per-match data: the program, the subject length
`len = limit - origin`, the byte fetch `get`, and the match-time capture
host callback `rt` (given the current position and capture log, the list
of result values it leaves on the host stack). -/
structure Machine where
  prog : Int → Instr
  len : Int
  get : Int → Nat
  rt : Int → List Capture → List LuaVal

/-- Fatal outcomes: C asserts / `luaL_error` calls. -/
inductive VMErr
  | assertFail
  | nilIndex
  | invalidPosition
  | tooManyResults
  | stackUnderflow
  deriving DecidableEq

/-- Step event: records when a left-recursion growth iteration (the
`IRet` rule lvar.1/inc.1 branch) was performed, and for which memo key. -/
inductive Ev
  | none
  | grew (key : Int)
  deriving DecidableEq

/-- Result of dispatching one instruction: a next state, a final result
(`some` end position from `IEnd`, `none` = FAIL from `IGiveup`), or a
fatal error. -/
inductive StepOut
  | next (st : State) (ev : Ev)
  | done (res : Option Int)
  | err (e : VMErr)
  deriving DecidableEq

/-- Size in instruction words of a charset instruction
(`CHARSETINSTSIZE` from lptypes.h: one opcode word plus 32 bytes of
bitmap in 4-byte words). -/
def CHARSETINSTSIZE : Int := 9

/-- `getkind(p)`: capture kind from the low nibble of `aux`
(lpcap.h).  The nibble value 15 is outside the enum; it is mapped to
`Cclose` here (it can only occur in a malformed program). -/
def kindOfNat (n : Nat) : CapKind :=
  match n with
  | 0 => .Cclose | 1 => .Cposition | 2 => .Cconst | 3 => .Cbackref
  | 4 => .Carg | 5 => .Csimple | 6 => .Ctable | 7 => .Cfunction
  | 8 => .Cquery | 9 => .Cstring | 10 => .Cnum | 11 => .Csubst
  | 12 => .Cfold | 13 => .Cruntime | _ => .Cgroup

def getkind (ins : Instr) : CapKind := kindOfNat (ins.aux % 16)

/-- `getoff(p)`: capture offset from the high nibble of `aux` (lpcap.h). -/
def getoff (ins : Instr) : Nat := ins.aux / 16 % 16

/-- `utf_to(inst)`: the 24-bit upper bound `(key << 8) | aux` of a UTF
range instruction. -/
def utf_to (ins : Instr) : Int := ins.key * 256 + ins.aux

/-- Conversion to the C `byte` field width (assignment to an unsigned
char wraps modulo 256). -/
def toByte (v : Int) : Nat := (v % 256).toNat

/-- The memo-table key encoding of a head/start pair (lpvm.c line 528):
`(pA - program) * maxpointer + (s0 - origin)`, with
`maxpointer = e - o` (line 354). -/
def lambdaindex (maxpointer pA pos : Int) : Int := pA * maxpointer + pos

/-- Lookup in the memo table (`lua_gettable` on the Lambda table). -/
def memoGet : List (Int × MemoEntry) → Int → Option MemoEntry
  | [], _ => Option.none
  | e :: m, k => if e.1 = k then some e.2 else memoGet m k

/-- Erase a memo entry (`clearlambdaitem` of lpvm.c). -/
def memoErase : List (Int × MemoEntry) → Int → List (Int × MemoEntry)
  | [], _ => []
  | e :: m, k => if e.1 = k then memoErase m k else e :: memoErase m k

/-- Store a memo entry under a key (table assignment). -/
def memoSet (m : List (Int × MemoEntry)) (k : Int) (v : MemoEntry) :
    List (Int × MemoEntry) :=
  (k, v) :: memoErase m k

/-- Number of `Cruntime`-kind events in a capture log. -/
def countRuntime (l : List Capture) : Nat :=
  l.countP (fun c => decide (c.kind = CapKind.Cruntime))

/-- The continuation-byte loop of `utf8_decode` (lpvm.c): reads bytes
while bit 6 of the shifted first byte is set.  Returns the final
`(count, c, res)`.  The first byte is below 0x100, and bit 6 of
`c <<< k` is clear for every `k > 6`, so the loop runs at most 7 times
and the fuel of 8 used at the call site is exact. -/
def utf8cont (get : Int → Nat) (i : Int) :
    Nat → Nat → Nat → Nat → Option (Nat × Nat × Nat)
  | 0, count, c, res => some (count, c, res)
  | fuel + 1, count, c, res =>
    if c &&& 0x40 ≠ 0 then
      let cc := get (i + (count + 1 : Nat))
      if cc &&& 0xC0 ≠ 0x80 then Option.none
      else utf8cont get i fuel (count + 1) (c <<< 1) ((res <<< 6) ||| (cc &&& 0x3F))
    else some (count, c, res)

/-- The `limits` table of `utf8_decode`. -/
def utf8limits : List Nat := [0xFF, 0x7F, 0x7FF, 0xFFFF]

/-- `utf8_decode` (lpvm.c): decode one UTF-8 sequence at offset `i`,
returning the offset one past the sequence and the code point, or
`none` for an invalid byte sequence. -/
def utf8_decode (get : Int → Nat) (i : Int) : Option (Int × Nat) :=
  let c := get i
  if c < 0x80 then some (i + 1, c)
  else
    match utf8cont get i 8 0 c 0 with
    | Option.none => Option.none
    | some (count, c1, res0) =>
      let res := res0 ||| ((c1 &&& 0x7F) <<< (count * 5))
      if count > 3 ∨ res > 0x10FFFF ∨ res ≤ utf8limits.getD count 0 then Option.none
      else some (i + (count : Int) + 1, res)

/-- The `ISpan` loop: advance the cursor over bytes admitted by the
charset while below the limit.  The fuel `(len - s).toNat` supplied at
the call site bounds the loop exactly. -/
def spanEnd (get : Int → Nat) (len : Int) (cs : Nat → Bool) :
    Nat → Int → Int
  | 0, s => s
  | fuel + 1, s => if s < len ∧ cs (get s) then spanEnd get len cs fuel (s + 1) else s

/-- `lua_toboolean`: everything but `nil` and `false` is true. -/
def luaToBoolean : LuaVal → Bool
  | .nil => false
  | .boolean b => b
  | .num _ => true

def luaIsBoolean : LuaVal → Bool
  | .boolean _ => true
  | _ => false

/-- `lua_tointeger`: numbers convert, other values give 0. -/
def luaToInteger : LuaVal → Int
  | .num n => n
  | _ => 0

/-- Outcome of `resdyncaptures`. -/
inductive RTRes
  | fail
  | fatal
  | ok (pos : Int)
  deriving DecidableEq

/-- `resdyncaptures` (lpvm.c): interpret the first host result.
Falsy → fail; boolean → keep the current position; number `n` → new
position `n - 1`, which must lie in `[curr, limit]` or the match aborts
with the fatal invalid-position error.  An empty result list reads like
`nil` (false). -/
def resdyncaptures (results : List LuaVal) (curr limit : Int) : RTRes :=
  match results.head? with
  | Option.none => .fail
  | some v =>
    if ¬ luaToBoolean v then .fail
    else if luaIsBoolean v then .ok curr
    else
      let res := luaToInteger v - 1
      if res < curr ∨ res > limit then .fatal else .ok res

/-- Index of the last open group event (`Cgroup` with `siz = 0`) in the
log.  Modelled from the spec: `runtimecap` lives in the absent lpcap.c;
per §4.4.3 the host is invoked for the open group that sits on the log,
and the entries nested above it are removed. -/
def lastOpenGroup : List Capture → Option Nat
  | [] => Option.none
  | c :: rest =>
    match lastOpenGroup rest with
    | some j => some (j + 1)
    | Option.none =>
      if c.kind = CapKind.Cgroup ∧ c.siz = 0 then some 0 else Option.none

/-- `adddyncaptures` (lpvm.c): make the open group `g` anonymous and
append `n` closed runtime captures (host-stack indices `fd`, `fd+1`, …)
followed by a close event.  The C leaves the close event's `idx` field
unset; the model stores 0. -/
def adddyncaptures (s : Int) (g : Capture) (n : Nat) (fd : Int) : List Capture :=
  { g with idx := 0 } ::
    ((List.range n).map fun i => { s := s, idx := fd + i, kind := CapKind.Cruntime, siz := 1 })
    ++ [{ s := s, idx := 0, kind := CapKind.Cclose, siz := 1 }]

/-- The in-place index shift `commitcapture[i].idx += ndyncap` applied by
`addcapturesfromlambda` to runtime-kind entries. -/
def spliceShift (nd : Nat) (c : Capture) : Capture :=
  if c.kind = CapKind.Cruntime then { c with idx := c.idx + nd } else c

/-- `addcapturesfromlambda` (lpvm.c): splice the captures memoised for
`key` into the working log `caps` / dynamic values `dyn`.  Runtime
entries of the stored log are shifted by the current number of dynamic
captures — in place, so the memo entry is updated too.  `none` models
the fatal error of indexing an absent entry; an entry whose snapshot
fields were never set (`commit = none`) reads as nil fields, i.e. zero
counts, and splices nothing. -/
def splice (memo : List (Int × MemoEntry)) (key : Int)
    (caps : List Capture) (dyn : List LuaVal) :
    Option (List (Int × MemoEntry) × List Capture × List LuaVal) :=
  match memoGet memo key with
  | Option.none => Option.none
  | some en =>
    match en.commit with
    | Option.none => some (memo, caps, dyn)
    | some sn =>
      let shifted := sn.caps.map (spliceShift dyn.length)
      some (memoSet memo key { en with commit := some { caps := shifted, dyn := sn.dyn } },
            caps ++ shifted, dyn ++ sn.dyn)

/-- Modelled from the spec: `removedyncap` (lpvm.c) locates the dynamic
captures via `finddyncap` from the absent lpcap.c; per §4.4.1 the
backtracker trims the dynamic captures that belong to runtime-kind
events at positions ≥ `level`.  Returns how many host values that is. -/
def removedyncapCount (caps : List Capture) (level : Nat) : Nat :=
  countRuntime (caps.drop level)

/-- The frame-popping loop of the fail handler (lpvm.c `fail:` label):
pop while the saved position is NULL (ordinary call) or the frame is a
left-recursive frame still at `LRFAIL`; each `LRFAIL` pop restores the
capture state saved at the left-recursive entry from the capture stack
and erases the frame's memo entry.  Returns the stopping frame, the
remaining stack and the updated memo / capture stack / working capture
state, or `none` where the C would underflow (its asserts). -/
def failPop (len : Int) :
    List Frame → List (Int × MemoEntry) →
    List (List Capture × List LuaVal) → List Capture → List LuaVal →
    Option (Frame × List Frame × List (Int × MemoEntry) ×
            List (List Capture × List LuaVal) × List Capture × List LuaVal)
  | [], _, _, _, _ => Option.none
  | fr :: rest, memo, cstk, caps, dyn =>
    if fr.X = XV.lrfail then
      match cstk, fr.s with
      | (c, d) :: cs, some s0 =>
        failPop len rest (memoErase memo (lambdaindex len fr.pA s0)) cs c d
      | _, _ => Option.none
    else
      match fr.s with
      | Option.none => failPop len rest memo cstk caps dyn
      | some _ => some (fr, rest, memo, cstk, caps, dyn)

/-- The fail handler (lpvm.c lines 598–645): pop frames with `failPop`,
trim dynamic captures above the stopping frame's `caplevel`, then either
resume at a choice frame (restore `s`, jump to the alternative, truncate
the log to `caplevel`) or — for a left-recursive frame whose seed grew
(rule inc.2) — restore the entry-time capture state, splice in the
memoised captures, set `s` to the seed end and erase the memo entry. -/
def doFail (M : Machine) (st : State) : StepOut :=
  match failPop M.len st.stack st.memo st.capStack st.caps st.dyn with
  | Option.none => .err .assertFail
  | some (fr, rest, m1, cstk1, caps1, dyn1) =>
    match fr.s with
    | Option.none => .err .assertFail
    | some sv =>
      let dyn2 := if 0 < dyn1.length
        then dyn1.take (dyn1.length - removedyncapCount caps1 fr.caplevel)
        else dyn1
      match fr.X with
      | XV.pos x =>
        match cstk1 with
        | [] => .err .stackUnderflow
        | (c, d) :: cs =>
          let key := lambdaindex M.len fr.pA sv
          match splice m1 key c d with
          | Option.none => .err .nilIndex
          | some (m2, c2, d2) =>
            .next { st with
                      s := x, p := fr.p, stack := rest, caps := c2, dyn := d2,
                      memo := memoErase m2 key, capStack := cs } .none
      | _ =>
        .next { st with
                  s := sv, p := fr.p, stack := rest,
                  caps := caps1.take fr.caplevel, dyn := dyn2,
                  memo := m1, capStack := cstk1 } .none

/-- The `IRet` growth branch (rules lvar.1/inc.1): the seed grew (or the
frame was still at `LRFAIL`), so update the frame's `X` and `caplevel`,
store the new seed length and a snapshot of the just-produced captures
into the memo entry, reset the working capture state, restore the
call-site cursor and jump back to the head for another iteration. -/
def retGrow (M : Machine) (st : State) (fr : Frame) (rest : List Frame) : StepOut :=
  match fr.s with
  | Option.none => .err .nilIndex
  | some s0 =>
    let key := lambdaindex M.len fr.pA s0
    match memoGet st.memo key with
    | Option.none => .err .nilIndex
    | some en =>
      .next { st with
                s := s0, p := .idx fr.pA,
                stack := { fr with X := .pos st.s, caplevel := st.caps.length } :: rest,
                caps := [], dyn := [],
                memo := memoSet st.memo key
                  { en with X := st.s, commit := some { caps := st.caps, dyn := st.dyn } } }
        (.grew key)

/-- The `IRet` non-growth branch (rule inc.3): pop the left-recursive
frame, restore the capture state saved at entry, splice in the memoised
captures, set the cursor to the seed end, erase the memo entry and
continue at the return address. -/
def retPopLR (M : Machine) (st : State) (fr : Frame) (rest : List Frame) (x : Int) : StepOut :=
  match fr.s with
  | Option.none => .err .nilIndex
  | some s0 =>
    match st.capStack with
    | [] => .err .stackUnderflow
    | (c, d) :: cs =>
      let key := lambdaindex M.len fr.pA s0
      match splice st.memo key c d with
      | Option.none => .err .nilIndex
      | some (m1, c1, d1) =>
        .next { st with
                  s := x, p := fr.p, stack := rest, caps := c1, dyn := d1,
                  memo := memoErase m1 key, capStack := cs } .none

/-- The `ICloseRunTime` handler: remove the captures nested above the
open group (spec-modelled `runtimecap`), call the host, interpret its
first result with `resdyncaptures`, and either fail, abort, or advance;
host values beyond the first become runtime captures, and if there are
none the open group itself is removed. -/
def closeRT (M : Machine) (st : State) (pi : Int) : StepOut :=
  match lastOpenGroup st.caps with
  | Option.none => .err .assertFail
  | some j =>
    let rem := countRuntime (st.caps.drop (j + 1))
    let caps1 := st.caps.take (j + 1)
    let dyn1 := st.dyn.take (st.dyn.length - rem)
    let results := M.rt st.s st.caps
    match resdyncaptures results st.s M.len with
    | .fail => doFail M { st with caps := caps1, dyn := dyn1 }
    | .fatal => .err .invalidPosition
    | .ok res =>
      let newvals := results.drop 1
      if newvals.length = 0 then
        .next { st with
                  s := res, p := .idx (pi + 1),
                  caps := caps1.dropLast, dyn := dyn1 } .none
      else if 32767 ≤ dyn1.length + newvals.length then .err .tooManyResults
      else
        match caps1.getLast? with
        | Option.none => .err .assertFail
        | some g =>
          .next { st with
                    s := res, p := .idx (pi + 1),
                    caps := caps1.dropLast
                      ++ adddyncaptures res g newvals.length (dyn1.length + 1),
                    dyn := dyn1 ++ newvals } .none

/-- One iteration of the opcode interpreter loop of `match` (lpvm.c):
dispatch the instruction under the program counter. -/
def step (M : Machine) (st : State) : StepOut :=
  match st.p with
  | .giveup => if st.stack = [] then .done Option.none else .err .assertFail
  | .idx pi =>
    let ins := M.prog pi
    match ins.code with
    | .IEnd =>
      if st.stack.length = 1 then .done (some st.s) else .err .assertFail
    | .IGiveup =>
      if st.stack = [] then .done Option.none else .err .assertFail
    | .IRet =>
      match st.stack with
      | [] => .err .assertFail
      | fr :: rest =>
        match fr.X with
        | .nul =>
          match fr.s with
          | some _ => .err .assertFail
          | Option.none => .next { st with p := fr.p, stack := rest } .none
        | .lrfail => retGrow M st fr rest
        | .pos x => if st.s > x then retGrow M st fr rest else retPopLR M st fr rest x
    | .IAny =>
      if st.s < M.len then .next { st with p := .idx (pi + 1), s := st.s + 1 } .none
      else doFail M st
    | .IUTFR =>
      if st.s ≥ M.len then doFail M st
      else
        match utf8_decode M.get st.s with
        | Option.none => doFail M st
        | some (s1, cp) =>
          if (M.prog (pi + 1)).offset ≤ (cp : Int) ∧ (cp : Int) ≤ utf_to ins
          then .next { st with p := .idx (pi + 2), s := s1 } .none
          else doFail M st
    | .ITestAny =>
      if st.s < M.len then .next { st with p := .idx (pi + 2) } .none
      else .next { st with p := .idx (pi + (M.prog (pi + 1)).offset) } .none
    | .IChar =>
      if M.get st.s = ins.aux ∧ st.s < M.len
      then .next { st with p := .idx (pi + 1), s := st.s + 1 } .none
      else doFail M st
    | .ITestChar =>
      if M.get st.s = ins.aux ∧ st.s < M.len
      then .next { st with p := .idx (pi + 2) } .none
      else .next { st with p := .idx (pi + (M.prog (pi + 1)).offset) } .none
    | .ISet =>
      if (M.prog (pi + 1)).buff (M.get st.s) ∧ st.s < M.len
      then .next { st with p := .idx (pi + CHARSETINSTSIZE), s := st.s + 1 } .none
      else doFail M st
    | .ITestSet =>
      if (M.prog (pi + 2)).buff (M.get st.s) ∧ st.s < M.len
      then .next { st with p := .idx (pi + 1 + CHARSETINSTSIZE) } .none
      else .next { st with p := .idx (pi + (M.prog (pi + 1)).offset) } .none
    | .IBehind =>
      if (ins.aux : Int) > st.s then doFail M st
      else .next { st with p := .idx (pi + 1), s := st.s - ins.aux } .none
    | .ISpan =>
      .next { st with
                p := .idx (pi + CHARSETINSTSIZE),
                s := spanEnd M.get M.len (M.prog (pi + 1)).buff (M.len - st.s).toNat st.s } .none
    | .IJmp =>
      .next { st with p := .idx (pi + (M.prog (pi + 1)).offset) } .none
    | .IChoice =>
      .next { st with
                p := .idx (pi + 2),
                stack := { s := some st.s, p := .idx (pi + (M.prog (pi + 1)).offset),
                           caplevel := st.caps.length, X := .nul, pA := 0 } :: st.stack } .none
    | .ICall =>
      if ins.aux = 0 then
        .next { st with
                  p := .idx (pi + (M.prog (pi + 1)).offset),
                  stack := { s := Option.none, p := .idx (pi + 2),
                             caplevel := 0, X := .nul, pA := 0 } :: st.stack } .none
      else
        let pA := pi + (M.prog (pi + 1)).offset
        let key := lambdaindex M.len pA st.s
        match memoGet st.memo key with
        | Option.none =>
          .next { st with
                    p := .idx pA,
                    stack := { s := some st.s, p := .idx (pi + 2),
                               caplevel := 0, X := .lrfail, pA := pA } :: st.stack,
                    memo := memoSet st.memo key { X := -1, k := ins.aux, commit := Option.none },
                    capStack := (st.caps, st.dyn) :: st.capStack,
                    caps := [], dyn := [] } .none
        | some en =>
          if en.X = -1 ∨ ins.aux < en.k then doFail M st
          else
            match splice st.memo key st.caps st.dyn with
            | Option.none => .err .nilIndex
            | some (m1, c1, d1) =>
              .next { st with
                        s := en.X, p := .idx (pi + 2),
                        caps := c1, dyn := d1, memo := m1 } .none
    | .ICommit =>
      match st.stack with
      | [] => .err .assertFail
      | fr :: rest =>
        if fr.s = Option.none then .err .assertFail
        else .next { st with p := .idx (pi + (M.prog (pi + 1)).offset), stack := rest } .none
    | .IPartialCommit =>
      match st.stack with
      | [] => .err .assertFail
      | fr :: rest =>
        if fr.s = Option.none then .err .assertFail
        else .next { st with
                       p := .idx (pi + (M.prog (pi + 1)).offset),
                       stack := { fr with s := some st.s, caplevel := st.caps.length } :: rest } .none
    | .IBackCommit =>
      match st.stack with
      | [] => .err .assertFail
      | fr :: rest =>
        match fr.s with
        | Option.none => .err .assertFail
        | some sv =>
          .next { st with
                    p := .idx (pi + (M.prog (pi + 1)).offset), s := sv,
                    caps := st.caps.take fr.caplevel, stack := rest } .none
    | .IFailTwice =>
      match st.stack with
      | [] => .err .assertFail
      | _ :: rest => doFail M { st with stack := rest }
    | .IFail => doFail M st
    | .IOpenCall => .err .assertFail
    | .IEmpty => .err .assertFail
    | .IFullCapture =>
      .next { st with
                p := .idx (pi + 1),
                caps := st.caps ++ [{ s := st.s - getoff ins, idx := ins.key,
                                      kind := getkind ins, siz := getoff ins + 1 }] } .none
    | .IOpenCapture =>
      .next { st with
                p := .idx (pi + 1),
                caps := st.caps ++ [{ s := st.s, idx := ins.key,
                                      kind := getkind ins, siz := 0 }] } .none
    | .ICloseCapture =>
      match st.caps.getLast? with
      | Option.none => .err .assertFail
      | some lastc =>
        if lastc.siz = 0 ∧ st.s - lastc.s < 255 then
          .next { st with
                    p := .idx (pi + 1),
                    caps := st.caps.dropLast
                      ++ [{ lastc with siz := toByte (st.s - lastc.s + 1) }] } .none
        else
          .next { st with
                    p := .idx (pi + 1),
                    caps := st.caps ++ [{ s := st.s, idx := ins.key,
                                          kind := getkind ins, siz := 1 }] } .none
    | .ICloseRunTime => closeRT M st pi

/-- The state `match` starts from: cursor at the initial position, pc at
the first instruction, the stack holding only the sentinel frame whose
saved program pointer is the `giveup` instruction. -/
def initState (s0 : Int) : State :=
  { s := s0, p := .idx 0,
    stack := [{ s := some s0, p := .giveup, caplevel := 0, X := .nul, pA := 0 }],
    caps := [], dyn := [], memo := [], capStack := [] }

/-- Run `n` dispatches, stopping (with `none`) at a final result or a
fatal error. -/
def runN (M : Machine) : Nat → State → Option State
  | 0, st => some st
  | n + 1, st =>
    match step M st with
    | .next st' _ => runN M n st'
    | _ => Option.none

/-- The states the interpreter can be in between two instruction
dispatches, starting from `st0`. -/
inductive Reachable (M : Machine) (st0 : State) : State → Prop
  | refl : Reachable M st0 st0
  | next {st st' : State} {ev : Ev} :
      Reachable M st0 st → step M st = .next st' ev → Reachable M st0 st'

/-- Byte fetch for a subject given as a byte list: offsets inside the
subject read its bytes, the offset `len` reads the terminating NUL that
the host guarantees, anything else reads 0 (never reached). -/
def stdGet (sub : List Nat) (i : Int) : Nat :=
  if 0 ≤ i then sub.getD i.toNat 0 else 0

/-- What the interpreter relies on about the byte fetch: a nonzero byte
lies strictly inside the subject (the byte at `len` is the NUL
terminator).  `stdGet` satisfies it. -/
def MachineOK (M : Machine) : Prop :=
  0 ≤ M.len ∧ ∀ j : Int, M.get j ≠ 0 → 0 ≤ j ∧ j < M.len

/-- A filler instruction word. -/
def defaultInstr : Instr :=
  { code := .IEmpty, aux := 0, key := 0, offset := 0, buff := fun _ => false }

/-- A program given as a list of instruction words. -/
def progOfList (l : List Instr) (i : Int) : Instr :=
  if 0 ≤ i then l.getD i.toNat defaultInstr else defaultInstr

/-- An opcode word with auxiliary byte and key. -/
def inst (c : Opcode) (aux : Nat) (key : Int) : Instr :=
  { code := c, aux := aux, key := key, offset := 0, buff := fun _ => false }

/-- An offset word. -/
def offw (n : Int) : Instr :=
  { code := .IEmpty, aux := 0, key := 0, offset := n, buff := fun _ => false }

/-- A machine over a concrete program and subject. -/
def mkMachine (l : List Instr) (sub : List Nat)
    (rt : Int → List Capture → List LuaVal) : Machine :=
  { prog := progOfList l, len := sub.length, get := stdGet sub, rt := rt }

/-- A host callback that is never consulted. -/
def noRT : Int → List Capture → List LuaVal := fun _ _ => []

/-- A position between `origin` and `limit` (as offsets: `0 ≤ v ≤ len`). -/
def posOK (len v : Int) : Prop := 0 ≤ v ∧ v ≤ len

/-- All positions stored in a stack frame are in range. -/
def frameOK (len : Int) (fr : Frame) : Prop :=
  (∀ v, fr.s = some v → posOK len v) ∧ ∀ x, fr.X = XV.pos x → posOK len x

/-- Every memo entry's seed is `LRFAIL` or an in-range position. -/
def memoOK (len : Int) (m : List (Int × MemoEntry)) : Prop :=
  ∀ e ∈ m, e.2.X = -1 ∨ posOK len e.2.X

/-- The positional machine invariant: the cursor and every position the
machine could restore the cursor from (saved frame cursors, frame seeds,
memoised seeds) lie between `origin` and `limit`. -/
def InvPos (M : Machine) (st : State) : Prop :=
  posOK M.len st.s ∧ (∀ fr ∈ st.stack, frameOK M.len fr) ∧ memoOK M.len st.memo

/-- The shape of the sentinel frame pushed by `match` before the loop. -/
def giveupFrameOK (fr : Frame) : Prop :=
  fr.caplevel = 0 ∧ fr.X = XV.nul ∧ fr.s ≠ Option.none

/-- Only the bottom frame of the stack may point to the `giveup`
instruction, and then it has the sentinel's shape. -/
def stackGiveupOK : List Frame → Prop
  | [] => True
  | [fr] => fr.p = PC.giveup → giveupFrameOK fr
  | fr :: rest => fr.p ≠ PC.giveup ∧ stackGiveupOK rest

/-- The sentinel invariant: `giveup` frames only at the bottom, and if the
program counter has reached `giveup` then the whole stack was unwound and
the capture log was reset to the sentinel's `caplevel` of 0. -/
def Inv8 (st : State) : Prop :=
  stackGiveupOK st.stack ∧ (st.p = PC.giveup → st.stack = [] ∧ st.caps = [])

/-- No instruction word of the program carries the `IGiveup` opcode (the
only `Giveup` instruction of a compiled program is the static one the
sentinel frame points to). -/
def NoIGiveup (M : Machine) : Prop := ∀ i : Int, (M.prog i).code ≠ Opcode.IGiveup

/-- The seed value of a frame as the C compares it: `LRFAIL` is the
pointer value `-1`; the `NULL` of non-left-recursive frames (whose seed
never participates in growth) is also mapped below every position. -/
def xint : XV → Int
  | .nul => -1
  | .lrfail => -1
  | .pos x => x

/-- The frame at depth `d` counted from the bottom of the stack (the
sentinel is depth 0).  Pushes and pops at the top do not disturb it. -/
def atDepth (stk : List Frame) (d : Nat) : Option Frame := stk.reverse.get? d

/-- Number of left-recursion growth iterations (`.grew` steps) for memo
key `key` along an `n`-step run. -/
def growthCountKey (M : Machine) : Nat → State → Int → Nat
  | 0, _, _ => 0
  | n + 1, st, key =>
    match step M st with
    | .next st' ev => (if ev = .grew key then 1 else 0) + growthCountKey M n st' key
    | _ => 0

/-- The memo entry for `key` exists in every state of an `n`-step run
(one lifetime of the entry). -/
def aliveKey (M : Machine) : Nat → State → Int → Bool
  | 0, st, key => (memoGet st.memo key).isSome
  | n + 1, st, key =>
    (memoGet st.memo key).isSome &&
      (match step M st with
       | .next st' _ => aliveKey M n st' key
       | _ => true)

/-- Number of growth iterations performed by the frame at depth `d`
along an `n`-step run; counting stops if the stack ever drops below
`d + 1` frames (the frame was popped). -/
def growthAtDepth (M : Machine) : Nat → State → Nat → Nat
  | 0, _, _ => 0
  | n + 1, st, d =>
    if st.stack.length < d + 1 then 0
    else
      match step M st with
      | .next st' ev =>
        (if st.stack.length = d + 1 ∧ ev ≠ Ev.none then 1 else 0) + growthAtDepth M n st' d
      | _ => 0

/-- A left-recursive grammar `A <- A 'x' / lpeg.B(1)` whose seed
iteration uses `IBehind` to end before the call site:
`0: Call A (k=1); 2: End; 4: A: Choice 12; 6: Call A (k=1); 8: Char x;
9: Commit 11; 11: Ret; 12: Behind 1; 13: Ret`. -/
def behindGrowProg : List Instr :=
  [inst .ICall 1 0, offw 4, inst .IEnd 0 0, defaultInstr,
   inst .IChoice 0 0, offw 8, inst .ICall 1 0, offw (-2), inst .IChar 120 0,
   inst .ICommit 0 0, offw 2, inst .IRet 0 0, inst .IBehind 1 0, inst .IRet 0 0]

/-- The machine running `behindGrowProg` on the subject "xx" (matching is
started at position 1). -/
def behindGrowM : Machine := mkMachine behindGrowProg [120, 120] noRT

/-- The state of `behindGrowM` one dispatch after start: the initial
`ICall` has just pushed the left-recursive frame, which sits at depth 1
(above the sentinel). -/
def c6st : State :=
  match runN behindGrowM 1 (initState 1) with
  | some st => st
  | _ => initState 1

/-- `Choice; OpenCapture(group); CloseRunTime; BackCommit`: a match-time
capture inside a predicate, whose host callback returns `true` plus one
extra value. -/
def backCommitProg : List Instr :=
  [inst .IChoice 0 0, offw 100, inst .IOpenCapture 14 0, inst .ICloseRunTime 0 0,
   inst .IBackCommit 0 0, offw 2, inst .IEnd 0 0]

def backCommitM : Machine :=
  mkMachine backCommitProg [] (fun _ _ => [.boolean true, .num 7])

/-- The sentinel frame for a match started at position 0. -/
def sentinel0 : Frame := { s := some 0, p := .giveup, caplevel := 0, X := .nul, pA := 0 }

/-- Concrete data for exercising the `IRet` left-recursion branches. -/
def c1M : Machine := mkMachine [inst .IRet 0 0] [] noRT

def c1fr : Frame := { s := some 0, p := .idx 5, caplevel := 0, X := .lrfail, pA := 0 }

def c1en : MemoEntry := { X := -1, k := 1, commit := Option.none }

def c1st : State :=
  { s := 0, p := .idx 0, stack := [c1fr, sentinel0], caps := [], dyn := [],
    memo := [(0, c1en)], capStack := [([], [])] }

/-- Concrete data for exercising the `ICall` memo-hit branches. -/
def c2M : Machine := mkMachine [inst .ICall 1 0, offw 2, inst .IRet 0 0] [97] noRT

def c2en : MemoEntry := { X := 1, k := 1, commit := Option.none }

def c2st : State :=
  { s := 0, p := .idx 0, stack := [sentinel0], caps := [], dyn := [],
    memo := [(2, c2en)], capStack := [] }

/-- A frame the fail loop pops through: an ordinary call frame
(`s = NULL`, possibly with any non-`LRFAIL` seed) or a left-recursive
frame still at `LRFAIL` (which carries its call-site position). -/
def poppableFrame (g : Frame) : Prop :=
  (g.X = XV.lrfail → g.s.isSome = true) ∧ (g.X ≠ XV.lrfail → g.s = Option.none)

instance (g : Frame) : Decidable (poppableFrame g) := by
  unfold poppableFrame
  infer_instance

/-- The memo keys of the `LRFAIL` left-recursive frames in a list. -/
def lrKeys (len : Int) (l : List Frame) : List Int :=
  l.filterMap fun g =>
    match g.X, g.s with
    | XV.lrfail, some v => some (lambdaindex len g.pA v)
    | _, _ => Option.none

/-- Number of `LRFAIL` left-recursive frames in a list. -/
def countLR (l : List Frame) : Nat := l.countP fun g => decide (g.X = XV.lrfail)

/-- The working capture state after the fail loop popped `k`
left-recursive frames: unchanged for `k = 0`, otherwise the `k`-th
capture-stack entry (the one saved at the deepest popped frame's entry
time). -/
def popRestore (cstk : List (List Capture × List LuaVal))
    (caps : List Capture) (dyn : List LuaVal) (k : Nat) :
    List Capture × List LuaVal :=
  if k = 0 then (caps, dyn) else cstk.getD (k - 1) ([], [])

/-- Concrete data for exercising the fail handler: an ordinary call
frame and an `LRFAIL` left-recursive frame above a choice frame. -/
def c3M : Machine := mkMachine [inst .IFail 0 0] [120] noRT

def c3ord : Frame := { s := Option.none, p := .idx 9, caplevel := 0, X := .nul, pA := 0 }

def c3lr : Frame := { s := some 0, p := .idx 7, caplevel := 0, X := .lrfail, pA := 4 }

def c3choice : Frame := { s := some 1, p := .idx 20, caplevel := 1, X := .nul, pA := 0 }

def c3caps : List Capture :=
  [{ s := 0, idx := 1, kind := .Csimple, siz := 1 },
   { s := 0, idx := 1, kind := .Cruntime, siz := 1 }]

def c3st : State :=
  { s := 1, p := .idx 0, stack := [c3ord, c3lr, c3choice, sentinel0],
    caps := [], dyn := [],
    memo := [(4, { X := -1, k := 1, commit := Option.none })],
    capStack := [(c3caps, [LuaVal.num 5])] }

/-- Concrete data for exercising `ICloseRunTime`: an open group on the
log, a host returning the single integer 2 (in range), and a host
returning 100 (out of range). -/
def c7group : Capture := { s := 0, idx := 5, kind := .Cgroup, siz := 0 }

def c7prog : List Instr :=
  [inst .IOpenCapture 14 0, inst .ICloseRunTime 0 0, inst .IEnd 0 0]

def c7M : Machine := mkMachine c7prog [97, 98] (fun _ _ => [LuaVal.num 2])

def c7Mbad : Machine := mkMachine c7prog [97, 98] (fun _ _ => [LuaVal.num 100])

def c7st : State :=
  { s := 0, p := .idx 1, stack := [sentinel0], caps := [c7group], dyn := [],
    memo := [], capStack := [] }

/-- Two machines for the byte-at-limit independence of the testing
opcodes: identical program and subject "ab", but the out-of-range byte
at offset `len = 2` reads 55 on one machine and 66 on the other. -/
def c10prog : List Instr := [inst .IChar 97 0, inst .IFail 0 0]

def c10M1 : Machine :=
  { prog := progOfList c10prog, len := 2,
    get := fun i => if i < 2 then stdGet [97, 98] i else 55, rt := noRT }

def c10M2 : Machine :=
  { prog := progOfList c10prog, len := 2,
    get := fun i => if i < 2 then stdGet [97, 98] i else 66, rt := noRT }

def c10st : State :=
  { s := 2, p := .idx 0, stack := [sentinel0], caps := [], dyn := [],
    memo := [], capStack := [] }

/-- A small machine used to witness the reachability statements. -/
def c4M : Machine := mkMachine [inst .IEnd 0 0] [97] noRT

/-! ## Memo-table lemmas -/

theorem memoGet_memoErase_self (m : List (Int × MemoEntry)) (k : Int) :
    memoGet (memoErase m k) k = Option.none := by
  induction m with
  | nil => rfl
  | cons e m ih =>
    by_cases h : e.1 = k <;> simp [memoErase, memoGet, h, ih]

theorem memoGet_memoErase_ne (m : List (Int × MemoEntry)) (k k' : Int) (h : k' ≠ k) :
    memoGet (memoErase m k) k' = memoGet m k' := by
  induction m with
  | nil => rfl
  | cons e m ih =>
    by_cases he : e.1 = k
    · have hne : ¬ e.1 = k' := by rw [he]; exact fun hc => h hc.symm
      simp only [memoErase, if_pos he, memoGet, if_neg hne]
      exact ih
    · simp only [memoErase, if_neg he, memoGet]
      by_cases he' : e.1 = k'
      · simp only [if_pos he']
      · simp only [if_neg he']
        exact ih

theorem memoGet_memoSet_self (m : List (Int × MemoEntry)) (k : Int) (v : MemoEntry) :
    memoGet (memoSet m k v) k = some v := by
  simp [memoSet, memoGet]

theorem memoGet_memoSet_ne (m : List (Int × MemoEntry)) (k k' : Int) (v : MemoEntry)
    (h : k' ≠ k) : memoGet (memoSet m k v) k' = memoGet m k' := by
  have hk : ¬ ((k, v).1 = k') := fun hc => h hc.symm
  simp only [memoSet, memoGet, if_neg hk]
  exact memoGet_memoErase_ne m k k' h

theorem memoGet_mem (m : List (Int × MemoEntry)) (k : Int) (v : MemoEntry)
    (h : memoGet m k = some v) : (k, v) ∈ m := by
  induction m with
  | nil => simp [memoGet] at h
  | cons e m ih =>
    obtain ⟨a, b⟩ := e
    by_cases he : a = k
    · simp only [memoGet, if_pos he] at h
      injection h with h2
      subst he
      subst h2
      exact List.mem_cons_self _ _
    · simp only [memoGet, if_neg he] at h
      exact List.mem_cons_of_mem _ (ih h)

theorem memoErase_subset (m : List (Int × MemoEntry)) (k : Int) :
    ∀ e ∈ memoErase m k, e ∈ m := by
  induction m with
  | nil => intro e he; simp [memoErase] at he
  | cons b m ih =>
    intro e he
    by_cases hb : b.1 = k
    · simp only [memoErase, if_pos hb] at he
      exact List.mem_cons_of_mem _ (ih e he)
    · simp only [memoErase, if_neg hb] at he
      rcases List.mem_cons.mp he with rfl | he2
      · exact List.mem_cons_self _ _
      · exact List.mem_cons_of_mem _ (ih e he2)

theorem memoOK_erase (len : Int) (m : List (Int × MemoEntry)) (k : Int)
    (h : memoOK len m) : memoOK len (memoErase m k) :=
  fun e he => h e (memoErase_subset m k e he)

theorem memoOK_set (len : Int) (m : List (Int × MemoEntry)) (k : Int) (v : MemoEntry)
    (h : memoOK len m) (hv : v.X = -1 ∨ posOK len v.X) : memoOK len (memoSet m k v) := by
  intro e he
  rcases List.mem_cons.mp he with rfl | he2
  · exact hv
  · exact h e (memoErase_subset m k e he2)

/-! ## C5: injectivity of the memo-key encoding -/

/-- C5, counterexample.  The claim asserts that the encoding
`(pA - program) * maxpos + (s0 - origin)` is injective over the pairs
that can arise during a match, i.e. over `0 ≤ s0 - origin ≤ maxpos`
(the spec's own invariant allows the cursor to sit at `limit`, and a
left-recursive call can be made there).  It is not: with
`maxpos = 1` the distinct pairs `(pA, s0) = (0, limit)` and
`(1, origin)` receive the same key. -/
theorem lambdaindex_boundary_collision :
    lambdaindex 1 0 1 = lambdaindex 1 1 0 ∧ ((0 : Int), (1 : Int)) ≠ ((1 : Int), (0 : Int)) := by
  constructor
  · rfl
  · decide

/-- C5, amended: the encoding `lambdaindex maxpos pA s0` is injective
over pairs whose start position lies strictly below the limit
(`0 ≤ s0 - origin < maxpos`); only the boundary pairs `(pA, limit)` and
`(pA + 1, origin)` collide.  Hence distinct head/start pairs never share
a memo entry as long as every left-recursive call site is strictly
below `limit`. -/
theorem lambdaindex_injective_below_limit (len pA1 s1 pA2 s2 : Int)
    (h1 : 0 ≤ s1) (h2 : s1 < len) (h3 : 0 ≤ s2) (h4 : s2 < len)
    (h : lambdaindex len pA1 s1 = lambdaindex len pA2 s2) :
    pA1 = pA2 ∧ s1 = s2 := by
  unfold lambdaindex at h
  have hlen : 0 ≤ len := le_of_lt (lt_of_le_of_lt h1 h2)
  rcases lt_trichotomy pA1 pA2 with hlt | heq | hgt
  · exfalso
    have h5 : pA1 + 1 ≤ pA2 := hlt
    have h6 : (pA1 + 1) * len ≤ pA2 * len := mul_le_mul_of_nonneg_right h5 hlen
    rw [add_one_mul] at h6
    linarith
  · refine ⟨heq, ?_⟩
    subst heq
    linarith
  · exfalso
    have h5 : pA2 + 1 ≤ pA1 := hgt
    have h6 : (pA2 + 1) * len ≤ pA1 * len := mul_le_mul_of_nonneg_right h5 hlen
    rw [add_one_mul] at h6
    linarith

/-- Witness for the amended C5 at a concrete in-range input. -/
theorem lambdaindex_injective_below_limit_witness :
    (0 : Int) ≤ 1 ∧ (1 : Int) < 2 ∧ ((5 : Int) = 5 ∧ (1 : Int) = 1) :=
  ⟨by decide, by decide,
    lambdaindex_injective_below_limit 2 5 1 5 1 (by decide) (by decide)
      (by decide) (by decide) rfl⟩

/-! ## C1: `IRet` on a left-recursive frame -/

/-- C1: when `Ret` executes while the top frame is left-recursive
(`X ≠ NULL`), then — writing `key` for the memo key of the frame's
`(pA, s0)` — (a) if the frame's seed is `LRFAIL` or the cursor moved
strictly past it, the machine updates the memo entry's `X` to
`s - origin`, snapshots the just-produced captures and dynamic captures
into the entry, resets the working capture state to empty, restores the
cursor to the call-site value `s0` and jumps to the head `pA`;
(b) otherwise it pops the frame, restores the capture and
dynamic-capture state saved at entry from the capture stack, splices in
the memoised captures, sets the cursor to `origin + X`, erases the memo
entry and continues at the frame's return address. -/
theorem ret_leftrec_spec (M : Machine) (st : State) (pi : Int) (fr : Frame)
    (rest : List Frame) (s0 key : Int) (en : MemoEntry)
    (hp : st.p = PC.idx pi) (hins : (M.prog pi).code = Opcode.IRet)
    (hstk : st.stack = fr :: rest) (hs0 : fr.s = some s0)
    (hkey : key = lambdaindex M.len fr.pA s0)
    (hen : memoGet st.memo key = some en) :
    ((fr.X = XV.lrfail ∨ ∃ x, fr.X = XV.pos x ∧ st.s > x) →
      step M st = .next { st with
                            s := s0, p := .idx fr.pA,
                            stack := { fr with X := .pos st.s, caplevel := st.caps.length } :: rest,
                            caps := [], dyn := [],
                            memo := memoSet st.memo key
                              { en with
                                  X := st.s,
                                  commit := some { caps := st.caps, dyn := st.dyn } } }
        (.grew key)) ∧
    (∀ x, fr.X = XV.pos x → st.s ≤ x →
      ∀ c d cs, st.capStack = (c, d) :: cs →
      ∀ m1 c1 d1, splice st.memo key c d = some (m1, c1, d1) →
      step M st = .next { st with
                            s := x, p := fr.p, stack := rest, caps := c1, dyn := d1,
                            memo := memoErase m1 key, capStack := cs } .none) := by
  subst hkey
  constructor
  · rintro (hXl | ⟨x, hXp, hgt⟩)
    · simp [step, hp, hins, hstk, hXl, retGrow, hs0, hen]
    · simp [step, hp, hins, hstk, hXp, hgt, retGrow, hs0, hen]
  · rintro x hXp hle c d cs hcs m1 c1 d1 hsp
    simp [step, hp, hins, hstk, hXp, not_lt.mpr hle, retPopLR, hs0, hcs, hsp]

/-- Witness for C1: a concrete `IRet` dispatch on a left-recursive frame
still at `LRFAIL` performs a growth iteration. -/
theorem ret_leftrec_spec_witness :
    (c1M.prog 0).code = Opcode.IRet ∧ c1st.p = PC.idx 0 ∧ c1fr.s = some 0 ∧
    memoGet c1st.memo 0 = some c1en ∧ c1fr.X = XV.lrfail ∧
    step c1M c1st = .next { c1st with
                              s := 0, p := .idx c1fr.pA,
                              stack := { c1fr with X := .pos c1st.s, caplevel := c1st.caps.length }
                                :: [sentinel0],
                              caps := [], dyn := [],
                              memo := memoSet c1st.memo 0
                                { c1en with
                                    X := c1st.s,
                                    commit := some { caps := c1st.caps, dyn := c1st.dyn } } }
      (.grew 0) :=
  ⟨by decide, by decide, by decide, by decide, by decide,
    (ret_leftrec_spec c1M c1st 0 c1fr [sentinel0] 0 0 c1en (by decide) (by decide)
      (by decide) (by decide) (by decide) (by decide)).1 (Or.inl (by decide))⟩

/-! ## C2: `ICall` with `k > 0` hitting an existing memo entry -/

/-- C2: when a `Call` with precedence `k > 0` finds an existing memo
entry for `(pA, s0 = s)`: (a) if the entry's seed is `LRFAIL` or `k` is
strictly below the entry's stored level, the call fails as a
backtrackable failure (the fail handler runs on the unchanged state);
(b) otherwise the memoised captures are spliced into the working log,
the cursor is set to `origin + entry.X` and execution continues just
past the 2-word `Call` instruction, without entering the rule body. -/
theorem call_leftrec_memo_spec (M : Machine) (st : State) (pi pA key : Int)
    (en : MemoEntry)
    (hp : st.p = PC.idx pi) (hins : (M.prog pi).code = Opcode.ICall)
    (hk : (M.prog pi).aux ≠ 0)
    (hpA : pA = pi + (M.prog (pi + 1)).offset)
    (hkey : key = lambdaindex M.len pA st.s)
    (hen : memoGet st.memo key = some en) :
    ((en.X = -1 ∨ (M.prog pi).aux < en.k) → step M st = doFail M st) ∧
    (en.X ≠ -1 → en.k ≤ (M.prog pi).aux →
      ∀ m1 c1 d1, splice st.memo key st.caps st.dyn = some (m1, c1, d1) →
      step M st = .next { st with
                            s := en.X, p := .idx (pi + 2),
                            caps := c1, dyn := d1, memo := m1 } .none) := by
  subst hpA
  subst hkey
  constructor
  · intro hfail
    simp [step, hp, hins, hk, hen, hfail]
  · intro hX hkk m1 c1 d1 hsp
    have hcond : ¬ (en.X = -1 ∨ (M.prog pi).aux < en.k) := by
      push_neg
      exact ⟨hX, hkk⟩
    simp [step, hp, hins, hk, hen, hcond, hsp]

/-- Witness for C2: a concrete memo hit at a grown seed splices the
(empty) memoised captures and skips the body. -/
theorem call_leftrec_memo_spec_witness :
    (c2M.prog 0).code = Opcode.ICall ∧ (c2M.prog 0).aux = 1 ∧
    memoGet c2st.memo 2 = some c2en ∧ c2en.X ≠ -1 ∧ c2en.k ≤ 1 ∧
    step c2M c2st = .next { c2st with
                              s := c2en.X, p := .idx 2,
                              caps := c2st.caps, dyn := c2st.dyn, memo := c2st.memo } .none :=
  ⟨by decide, by decide, by decide, by decide, by decide,
    (call_leftrec_memo_spec c2M c2st 0 2 2 c2en (by decide) (by decide) (by decide)
      (by decide) (by decide) (by decide)).2 (by decide) (by decide)
      c2st.memo c2st.caps c2st.dyn (by decide)⟩

/-! ## C3: backtracking -/


theorem memoGet_memoErase_none (m : List (Int × MemoEntry)) (k k' : Int)
    (h : memoGet m k = Option.none) : memoGet (memoErase m k') k = Option.none := by
  by_cases hk : k = k'
  · subst hk
    exact memoGet_memoErase_self m k
  · rw [memoGet_memoErase_ne m k' k hk]
    exact h

theorem memoGet_foldl_erase_none (keys : List Int) (m : List (Int × MemoEntry)) (k : Int)
    (h : memoGet m k = Option.none) :
    memoGet (keys.foldl memoErase m) k = Option.none := by
  induction keys generalizing m with
  | nil => exact h
  | cons a keys ih => exact ih (memoErase m a) (memoGet_memoErase_none m k a h)

theorem memoGet_foldl_erase_mem (keys : List Int) (m : List (Int × MemoEntry)) (k : Int)
    (h : k ∈ keys) : memoGet (keys.foldl memoErase m) k = Option.none := by
  induction keys generalizing m with
  | nil => simp at h
  | cons a keys ih =>
    rcases List.mem_cons.mp h with rfl | h2
    · exact memoGet_foldl_erase_none keys (memoErase m k) k (memoGet_memoErase_self m k)
    · exact ih (memoErase m a) h2

/-- Characterisation of the fail loop: popping a run of poppable frames
(ordinary calls and `LRFAIL` left-recursive frames) stops at the first
frame with a saved position and a non-`LRFAIL` seed; the memo entries of
all popped left-recursive frames are erased, one capture-stack entry is
consumed per popped left-recursive frame, and the working capture state
is the one saved at the deepest popped left-recursive frame (unchanged
when none was popped). -/
theorem failPop_spec (len : Int) (junk : List Frame) (fr : Frame) (rest : List Frame)
    (memo : List (Int × MemoEntry)) (cstk : List (List Capture × List LuaVal))
    (caps : List Capture) (dyn : List LuaVal)
    (hjunk : ∀ g ∈ junk, poppableFrame g)
    (hfrX : fr.X ≠ XV.lrfail) (hfrs : fr.s ≠ Option.none)
    (hlen : countLR junk ≤ cstk.length) :
    failPop len (junk ++ fr :: rest) memo cstk caps dyn =
      some (fr, rest, (lrKeys len junk).foldl memoErase memo,
            cstk.drop (countLR junk),
            (popRestore cstk caps dyn (countLR junk)).1,
            (popRestore cstk caps dyn (countLR junk)).2) := by
  induction junk generalizing memo cstk caps dyn with
  | nil =>
    obtain ⟨sv, hsv⟩ := Option.ne_none_iff_exists.mp hfrs
    simp only [List.nil_append, failPop, if_neg hfrX, ← hsv]
    simp [lrKeys, countLR, popRestore]
  | cons g junk ih =>
    have hg := hjunk g (List.mem_cons_self g junk)
    have hjunk' : ∀ x ∈ junk, poppableFrame x :=
      fun x hx => hjunk x (List.mem_cons_of_mem g hx)
    by_cases hX : g.X = XV.lrfail
    · obtain ⟨v, hv⟩ := Option.isSome_iff_exists.mp (hg.1 hX)
      have hcount : countLR (g :: junk) = countLR junk + 1 := by
        simp [countLR, List.countP_cons, hX]
      rw [hcount] at hlen
      cases cstk with
      | nil => simp at hlen
      | cons cd cs =>
        have hlen' : countLR junk ≤ cs.length := by
          simpa using hlen
        simp only [List.cons_append, failPop, if_pos hX, hv]
        simp only [List.append_eq]
        rw [ih (memoErase memo (lambdaindex len g.pA v)) cs cd.1 cd.2 hjunk' hlen']
        have hkeys : lrKeys len (g :: junk) =
            lambdaindex len g.pA v :: lrKeys len junk := by
          simp [lrKeys, List.filterMap_cons, hX, hv]
        rw [hkeys, hcount]
        have hrest : popRestore (cd :: cs) caps dyn (countLR junk + 1) =
            popRestore cs cd.1 cd.2 (countLR junk) := by
          cases h0 : countLR junk with
          | zero => simp [popRestore]
          | succ n => simp [popRestore, List.getD_cons_succ]
        rw [hrest]
        rfl
    · have hnone := hg.2 hX
      have hcount : countLR (g :: junk) = countLR junk := by
        simp [countLR, List.countP_cons, hX]
      rw [hcount] at hlen
      simp only [List.cons_append, failPop, if_neg hX, hnone]
      simp only [List.append_eq]
      rw [ih memo cstk caps dyn hjunk' hlen]
      have hkeys : lrKeys len (g :: junk) = lrKeys len junk := by
        simp [lrKeys, List.filterMap_cons, hnone]
      rw [hkeys, hcount]

/-- C3: on a backtrackable failure the machine pops frames until one
with a saved cursor not in the `LRFAIL` state is found: popped ordinary
call frames are discarded; for each popped left-recursive frame whose
memo entry is still at `LRFAIL`, the memo entry is deleted and the
capture log and dynamic-capture snapshot saved at its entry are
restored; and when a choice frame is reached, the dynamic captures
above its saved `caplevel` are removed from the host stack, the cursor
is restored to its saved value, `p` is set to its alternative address
and `captop` to its `caplevel`. -/
theorem fail_backtrack_spec (M : Machine) (st : State) (junk : List Frame) (fr : Frame)
    (rest : List Frame) (sv : Int)
    (hstk : st.stack = junk ++ fr :: rest)
    (hjunk : ∀ g ∈ junk, poppableFrame g)
    (hfrX : fr.X = XV.nul) (hfrs : fr.s = some sv)
    (hlen : countLR junk ≤ st.capStack.length) :
    (∀ pi, st.p = PC.idx pi → (M.prog pi).code = Opcode.IFail →
      step M st = doFail M st) ∧
    (∀ caps1 dyn1, popRestore st.capStack st.caps st.dyn (countLR junk) = (caps1, dyn1) →
      doFail M st = .next { st with
                              s := sv, p := fr.p, stack := rest,
                              caps := caps1.take fr.caplevel,
                              dyn := if 0 < dyn1.length
                                then dyn1.take (dyn1.length - removedyncapCount caps1 fr.caplevel)
                                else dyn1,
                              memo := (lrKeys M.len junk).foldl memoErase st.memo,
                              capStack := st.capStack.drop (countLR junk) } .none) ∧
    (∀ key ∈ lrKeys M.len junk,
      memoGet ((lrKeys M.len junk).foldl memoErase st.memo) key = Option.none) := by
  have hX' : fr.X ≠ XV.lrfail := by rw [hfrX]; exact fun h => XV.noConfusion h
  have hs' : fr.s ≠ Option.none := by rw [hfrs]; exact fun h => Option.noConfusion h
  refine ⟨?_, ?_, ?_⟩
  · intro pi hp hins
    simp [step, hp, hins]
  · intro caps1 dyn1 hpr
    have hfp := failPop_spec M.len junk fr rest st.memo st.capStack st.caps st.dyn hjunk hX' hs' hlen
    rw [doFail, hstk, hfp]
    simp only [hfrs, hfrX, hpr]
  · intro key hkey
    exact memoGet_foldl_erase_mem _ _ _ hkey

/-- Witness for C3 at the concrete state `c3st`: the ordinary and
`LRFAIL` frames are popped, the left-recursive memo entry is erased,
the capture state saved on the capture stack is restored and then cut
at the choice frame's `caplevel`, and control resumes at the choice
frame's alternative with its saved cursor. -/
theorem fail_backtrack_spec_witness :
    c3st.stack = [c3ord, c3lr] ++ c3choice :: [sentinel0] ∧
    c3choice.X = XV.nul ∧ c3choice.s = some 1 ∧ countLR [c3ord, c3lr] = 1 ∧
    doFail c3M c3st = .next { c3st with
                                s := 1, p := .idx 20, stack := [sentinel0],
                                caps := c3caps.take 1, dyn := [],
                                memo := (lrKeys c3M.len [c3ord, c3lr]).foldl memoErase c3st.memo,
                                capStack := [] } .none ∧
    memoGet ((lrKeys c3M.len [c3ord, c3lr]).foldl memoErase c3st.memo) 4 = Option.none :=
  ⟨by decide, by decide, by decide, by decide,
    by
      have h := (fail_backtrack_spec c3M c3st [c3ord, c3lr] c3choice [sentinel0] 1
        (by decide) (by decide) (by decide) (by decide) (by decide)).2.1
        c3caps [LuaVal.num 5] (by decide)
      rw [h]
      decide,
    (fail_backtrack_spec c3M c3st [c3ord, c3lr] c3choice [sentinel0] 1
      (by decide) (by decide) (by decide) (by decide) (by decide)).2.2 4 (by decide)⟩


/-! ## C7: `ICloseRunTime` host results -/

/-- C7: when the `CloseRunTime` host callback returns an integer `n`,
the cursor is set to `origin + (n - 1)`; this is accepted only when
`current ≤ n - 1 ≤ limit`, and a value outside that range aborts the
match with the fatal invalid-position error rather than a backtrackable
failure.  When the callback succeeds with no additional capture values,
the pending open-group capture event is removed from the log. -/
theorem closeruntime_spec (M : Machine) (st : State) (pi : Int) (j : Nat)
    (n : Int) (restvals : List LuaVal)
    (hp : st.p = PC.idx pi) (hins : (M.prog pi).code = Opcode.ICloseRunTime)
    (hog : lastOpenGroup st.caps = some j)
    (hres : M.rt st.s st.caps = LuaVal.num n :: restvals) :
    ((n - 1 < st.s ∨ n - 1 > M.len) → step M st = .err .invalidPosition) ∧
    (st.s ≤ n - 1 → n - 1 ≤ M.len → restvals = [] →
      step M st = .next { st with
                            s := n - 1, p := .idx (pi + 1),
                            caps := (st.caps.take (j + 1)).dropLast,
                            dyn := st.dyn.take
                              (st.dyn.length - countRuntime (st.caps.drop (j + 1))) } .none) := by
  constructor
  · intro hbad
    simp [step, hp, hins, closeRT, hog, hres, resdyncaptures, luaToBoolean,
      luaIsBoolean, luaToInteger, hbad]
  · intro h1 h2 h3
    have hok : ¬ (n - 1 < st.s ∨ n - 1 > M.len) := by
      push_neg
      exact ⟨h1, h2⟩
    simp [step, hp, hins, closeRT, hog, hres, resdyncaptures, luaToBoolean,
      luaIsBoolean, luaToInteger, hok, h3]

/-- Witness for C7: the host returning 2 on a two-byte subject moves the
cursor to 1 and collapses the open group; the host returning 100 aborts
with the invalid-position error. -/
theorem closeruntime_spec_witness :
    (c7M.prog 1).code = Opcode.ICloseRunTime ∧
    lastOpenGroup c7st.caps = some 0 ∧
    c7M.rt c7st.s c7st.caps = [LuaVal.num 2] ∧
    step c7M c7st = .next { c7st with
                              s := 1, p := .idx 2,
                              caps := [], dyn := [] } .none ∧
    step c7Mbad c7st = .err .invalidPosition :=
  ⟨by decide, by decide, by decide,
    by
      have h := (closeruntime_spec c7M c7st 1 0 2 [] (by decide) (by decide)
        (by decide) (by decide)).2 (by decide) (by decide) rfl
      rw [h]
      decide,
    (closeruntime_spec c7Mbad c7st 1 0 100 [] (by decide) (by decide)
      (by decide) (by decide)).1 (by decide)⟩

/-! ## C4: the cursor stays between origin and limit -/

/-- Every continuation byte the decode loop accepts was read strictly
inside the subject (a byte at or past `len` reads as the NUL
terminator, which is not a continuation byte), so the final count stays
inside. -/
theorem utf8cont_inside (get : Int → Nat) (len i : Int)
    (hget : ∀ j : Int, get j ≠ 0 → 0 ≤ j ∧ j < len) :
    ∀ fuel count c res count' c' res',
      utf8cont get i fuel count c res = some (count', c', res') →
      (count = 0 ∨ i + (count : Int) < len) →
      (count' = 0 ∨ i + (count' : Int) < len) := by
  intro fuel
  induction fuel with
  | zero =>
    intro count c res count' c' res' h hc
    simp only [utf8cont] at h
    obtain ⟨rfl, rfl, rfl⟩ : count = count' ∧ c = c' ∧ res = res' := by
      injection h with h
      injection h with h1 h
      injection h with h2 h3
      exact ⟨h1, h2, h3⟩
    exact hc
  | succ fuel ih =>
    intro count c res count' c' res' h hc
    simp only [utf8cont] at h
    by_cases hguard : c &&& 0x40 ≠ 0
    · rw [if_pos hguard] at h
      by_cases hcc : get (i + ((count : Nat) + 1 : Nat)) &&& 0xC0 ≠ 0x80
      · rw [if_pos hcc] at h
        exact absurd h (by simp)
      · rw [if_neg hcc] at h
        push_neg at hcc
        have hnz : get (i + ((count : Nat) + 1 : Nat)) ≠ 0 := by
          intro h0
          rw [h0] at hcc
          simp at hcc
        have hin := (hget _ hnz).2
        refine ih (count + 1) (c <<< 1) _ count' c' res' h (Or.inr ?_)
        push_cast at hin ⊢
        linarith
    · rw [if_neg hguard] at h
      obtain ⟨rfl, rfl, rfl⟩ : count = count' ∧ c = c' ∧ res = res' := by
        injection h with h
        injection h with h1 h
        injection h with h2 h3
        exact ⟨h1, h2, h3⟩
      exact hc

/-- A successful `utf8_decode` starting strictly inside the subject
returns a position past the start and at most `len`. -/
theorem utf8_decode_bounds (get : Int → Nat) (len i : Int)
    (hget : ∀ j : Int, get j ≠ 0 → 0 ≤ j ∧ j < len)
    (hi : i < len) (s1 : Int) (cp : Nat)
    (h : utf8_decode get i = some (s1, cp)) : i < s1 ∧ s1 ≤ len := by
  unfold utf8_decode at h
  by_cases hascii : get i < 0x80
  · rw [if_pos hascii] at h
    injection h with h
    injection h with h1 h2
    subst h1
    omega
  · rw [if_neg hascii] at h
    cases hcont : utf8cont get i 8 0 (get i) 0 with
    | none => rw [hcont] at h; exact absurd h (by simp)
    | some r =>
      obtain ⟨count, c1, res0⟩ := r
      rw [hcont] at h
      simp only at h
      by_cases hvalid : count > 3 ∨ res0 ||| ((c1 &&& 0x7F) <<< (count * 5)) > 0x10FFFF ∨
          res0 ||| ((c1 &&& 0x7F) <<< (count * 5)) ≤ utf8limits.getD count 0
      · rw [if_pos hvalid] at h
        exact absurd h (by simp)
      · rw [if_neg hvalid] at h
        injection h with h
        injection h with h1 h2
        subst h1
        have := utf8cont_inside get len i hget 8 0 (get i) 0 count c1 res0 hcont (Or.inl rfl)
        rcases this with h0 | hlt
        · subst h0
          constructor
          · omega
          · push_cast
            omega
        · constructor
          · have : (0 : Int) ≤ (count : Int) := Int.ofNat_nonneg count
            omega
          · omega

/-- The `ISpan` loop never moves the cursor backwards nor past `len`. -/
theorem spanEnd_bounds (get : Int → Nat) (len : Int) (cs : Nat → Bool) :
    ∀ fuel (s : Int), s ≤ spanEnd get len cs fuel s ∧
      (s ≤ len → spanEnd get len cs fuel s ≤ len) := by
  intro fuel
  induction fuel with
  | zero => intro s; exact ⟨le_refl s, fun h => h⟩
  | succ fuel ih =>
    intro s
    simp only [spanEnd]
    by_cases hg : s < len ∧ cs (get s)
    · rw [if_pos hg]
      rcases ih (s + 1) with ⟨h1, h2⟩
      exact ⟨by linarith, fun _ => h2 (by linarith [hg.1])⟩
    · rw [if_neg hg]
      exact ⟨le_refl s, fun h => h⟩

/-- The fail loop stops at a frame of the original stack; the remaining
frames are original frames and the memo table only lost entries. -/
theorem failPop_frames (len : Int) :
    ∀ (stk : List Frame) memo cstk caps dyn fr rest m1 cstk1 c1 d1,
      failPop len stk memo cstk caps dyn = some (fr, rest, m1, cstk1, c1, d1) →
      fr ∈ stk ∧ (∀ g ∈ rest, g ∈ stk) ∧ (∀ e ∈ m1, e ∈ memo) := by
  intro stk
  induction stk with
  | nil => intro memo cstk caps dyn fr rest m1 cstk1 c1 d1 h; exact absurd h (by simp [failPop])
  | cons g stk ih =>
    intro memo cstk caps dyn fr rest m1 cstk1 c1 d1 h
    simp only [failPop] at h
    by_cases hX : g.X = XV.lrfail
    · rw [if_pos hX] at h
      cases cstk with
      | nil =>
        obtain hgs | ⟨s0, hgs⟩ := Option.eq_none_or_eq_some g.s <;> rw [hgs] at h <;> simp at h
      | cons cd cs =>
        obtain ⟨c, d⟩ := cd
        obtain hgs | ⟨s0, hgs⟩ := Option.eq_none_or_eq_some g.s
        · rw [hgs] at h
          simp at h
        · rw [hgs] at h
          simp only at h
          obtain ⟨h1, h2, h3⟩ := ih _ _ _ _ _ _ _ _ _ _ h
          exact ⟨List.mem_cons_of_mem g h1,
            fun x hx => List.mem_cons_of_mem g (h2 x hx),
            fun e he => memoErase_subset _ _ e (h3 e he)⟩
    · rw [if_neg hX] at h
      obtain hgs | ⟨sv, hgs⟩ := Option.eq_none_or_eq_some g.s
      · rw [hgs] at h
        obtain ⟨h1, h2, h3⟩ := ih _ _ _ _ _ _ _ _ _ _ h
        exact ⟨List.mem_cons_of_mem g h1,
          fun x hx => List.mem_cons_of_mem g (h2 x hx), h3⟩
      · rw [hgs] at h
        simp only [Option.some.injEq, Prod.mk.injEq] at h
        obtain ⟨rfl, rfl, rfl, rfl, rfl, rfl⟩ := h
        exact ⟨List.mem_cons_self g stk, fun x hx => List.mem_cons_of_mem g hx,
          fun e he => he⟩

/-- Splicing updates only snapshot fields: seeds in the memo table keep
their bounds. -/
theorem splice_memoOK (len : Int) (memo : List (Int × MemoEntry)) (key : Int)
    (caps : List Capture) (dyn : List LuaVal)
    (m1 : List (Int × MemoEntry)) (c1 : List Capture) (d1 : List LuaVal)
    (h : splice memo key caps dyn = some (m1, c1, d1)) (hm : memoOK len memo) :
    memoOK len m1 := by
  unfold splice at h
  split at h
  · exact absurd h (by simp)
  · rename_i en hen
    split at h
    · simp only [Option.some.injEq, Prod.mk.injEq] at h
      obtain ⟨rfl, -, -⟩ := h
      exact hm
    · rename_i sn hsn
      simp only [Option.some.injEq, Prod.mk.injEq] at h
      obtain ⟨rfl, -, -⟩ := h
      exact memoOK_set len memo key _ hm (hm _ (memoGet_mem memo key en hen))



/-- `resdyncaptures` only accepts positions between the current one and
the limit (or keeps the current one). -/
theorem resdyncaptures_ok_bounds (results : List LuaVal) (curr limit res : Int)
    (h : resdyncaptures results curr limit = .ok res)
    (hc : 0 ≤ curr ∧ curr ≤ limit) : 0 ≤ res ∧ res ≤ limit := by
  unfold resdyncaptures at h
  split at h
  · simp at h
  · rename_i v hv
    split at h
    · simp at h
    · split at h
      · injection h with h1
        subst h1
        exact hc
      · simp only [] at h
        split at h
        · simp at h
        · rename_i hrange
          push_neg at hrange
          injection h with h1
          subst h1
          exact ⟨le_trans hc.1 hrange.1, hrange.2⟩

/-- The fail handler preserves the positional invariant. -/
theorem doFail_invPos (M : Machine) (st st' : State) (ev : Ev)
    (hinv : InvPos M st) (h : doFail M st = .next st' ev) : InvPos M st' := by
  obtain ⟨hs, hstk, hmemo⟩ := hinv
  unfold doFail at h
  split at h
  · simp at h
  · rename_i fr rest m1 cstk1 c1 d1 hfp
    obtain ⟨hfr, hrest, hm1⟩ :=
      failPop_frames M.len st.stack st.memo st.capStack st.caps st.dyn
        fr rest m1 cstk1 c1 d1 hfp
    have hmOK : memoOK M.len m1 := fun e he => hmemo e (hm1 e he)
    have hfrOK := hstk fr hfr
    split at h
    · simp at h
    · rename_i sv hsv
      simp only [] at h
      split at h
      · rename_i x hx
        split at h
        · simp at h
        · rename_i c d cs
          split at h
          · simp at h
          · rename_i m2 c2 d2 hsp
            injection h with h1 h2
            subst h1
            refine ⟨hfrOK.2 x hx, fun g hg => hstk g (hrest g hg), ?_⟩
            exact memoOK_erase _ _ _ (splice_memoOK M.len m1 _ c d m2 c2 d2 hsp hmOK)
      · injection h with h1 h2
        subst h1
        exact ⟨hfrOK.1 sv hsv, fun g hg => hstk g (hrest g hg), hmOK⟩

/-- The `IRet` growth branch preserves the positional invariant. -/
theorem retGrow_invPos (M : Machine) (st st' : State) (ev : Ev) (fr : Frame)
    (rest : List Frame) (hstk : st.stack = fr :: rest)
    (hs : posOK M.len st.s) (hfr : ∀ g ∈ st.stack, frameOK M.len g)
    (hmemo : memoOK M.len st.memo)
    (h : retGrow M st fr rest = .next st' ev) : InvPos M st' := by
  unfold retGrow at h
  split at h
  · simp at h
  · rename_i s0 hs0
    simp only [] at h
    split at h
    · simp at h
    · rename_i en hen
      injection h with h1 h2
      subst h1
      have hfrOK := hfr fr (hstk ▸ List.mem_cons_self fr rest)
      refine ⟨hfrOK.1 s0 hs0, ?_, ?_⟩
      · intro g hg
        rcases List.mem_cons.mp hg with rfl | hg2
        · refine ⟨fun v hv => hfrOK.1 v hv, fun x hx => ?_⟩
          injection hx with hx
          subst hx
          exact hs
        · exact hfr g (hstk ▸ List.mem_cons_of_mem fr hg2)
      · exact memoOK_set _ _ _ _ hmemo (Or.inr hs)

/-- The `IRet` non-growth branch preserves the positional invariant. -/
theorem retPopLR_invPos (M : Machine) (st st' : State) (ev : Ev) (fr : Frame)
    (rest : List Frame) (x : Int) (hstk : st.stack = fr :: rest)
    (hx : fr.X = XV.pos x)
    (hfr : ∀ g ∈ st.stack, frameOK M.len g)
    (hmemo : memoOK M.len st.memo)
    (h : retPopLR M st fr rest x = .next st' ev) : InvPos M st' := by
  unfold retPopLR at h
  split at h
  · simp at h
  · rename_i s0 hs0
    split at h
    · simp at h
    · rename_i c d cs hcs
      simp only [] at h
      split at h
      · simp at h
      · rename_i m1 c1 d1 hsp
        injection h with h1 h2
        subst h1
        have hfrOK := hfr fr (hstk ▸ List.mem_cons_self fr rest)
        refine ⟨hfrOK.2 x hx,
          fun g hg => hfr g (hstk ▸ List.mem_cons_of_mem fr hg), ?_⟩
        exact memoOK_erase _ _ _ (splice_memoOK M.len st.memo _ c d m1 c1 d1 hsp hmemo)

/-- The `ICloseRunTime` handler preserves the positional invariant. -/
theorem closeRT_invPos (M : Machine) (st st' : State) (ev : Ev) (pi : Int)
    (hs : posOK M.len st.s) (hstk : ∀ g ∈ st.stack, frameOK M.len g)
    (hmemo : memoOK M.len st.memo)
    (h : closeRT M st pi = .next st' ev) : InvPos M st' := by
  unfold closeRT at h
  split at h
  · simp at h
  · rename_i j hj
    simp only [] at h
    split at h
    · exact doFail_invPos M
        { st with
            caps := st.caps.take (j + 1),
            dyn := st.dyn.take (st.dyn.length - countRuntime (st.caps.drop (j + 1))) }
        st' ev ⟨hs, hstk, hmemo⟩ h
    · simp at h
    · rename_i res hres
      have hresOK := resdyncaptures_ok_bounds _ _ _ _ hres hs
      split at h
      · injection h with h1 h2
        subst h1
        exact ⟨hresOK, hstk, hmemo⟩
      · split at h
        · simp at h
        · split at h
          · simp at h
          · rename_i g hg
            injection h with h1 h2
            subst h1
            exact ⟨hresOK, hstk, hmemo⟩

/-- One dispatch of the interpreter preserves the positional invariant:
no opcode and no cursor update performed by backtracking or by a host
callback result moves the cursor below `origin` or above `limit`, nor
stores such a position anywhere it could later be restored from. -/
theorem step_invPos (M : Machine) (hM : MachineOK M) (st st' : State) (ev : Ev)
    (hinv : InvPos M st) (h : step M st = .next st' ev) : InvPos M st' := by
  obtain ⟨hs, hstk, hmemo⟩ := hinv
  have hlen0 : 0 ≤ M.len := hM.1
  unfold step at h
  split at h
  · -- pc = giveup
    split at h <;> simp at h
  · rename_i pi hpi
    simp only [] at h
    split at h
    · -- IEnd
      split at h <;> simp at h
    · -- IGiveup
      split at h <;> simp at h
    · -- IRet
      split at h
      · simp at h
      · rename_i fr rest hstkeq
        split at h
        · -- X = nul
          split at h
          · simp at h
          · injection h with h1 h2
            subst h1
            exact ⟨hs, fun g hg => hstk g (hstkeq ▸ List.mem_cons_of_mem fr hg), hmemo⟩
        · -- X = lrfail
          exact retGrow_invPos M st st' ev fr rest hstkeq hs hstk hmemo h
        · -- X = pos x
          rename_i x hxeq
          split at h
          · exact retGrow_invPos M st st' ev fr rest hstkeq hs hstk hmemo h
          · exact retPopLR_invPos M st st' ev fr rest x hstkeq hxeq hstk hmemo h
    · -- IAny
      split at h
      · rename_i hlt
        injection h with h1 h2
        subst h1
        exact ⟨⟨show (0 : Int) ≤ st.s + 1 by linarith [hs.1],
          show st.s + 1 ≤ M.len by linarith⟩, hstk, hmemo⟩
      · exact doFail_invPos M st st' ev ⟨hs, hstk, hmemo⟩ h
    · -- IUTFR
      split at h
      · exact doFail_invPos M st st' ev ⟨hs, hstk, hmemo⟩ h
      · rename_i hge
        push_neg at hge
        split at h
        · exact doFail_invPos M st st' ev ⟨hs, hstk, hmemo⟩ h
        · rename_i s1 cp hdec
          split at h
          · injection h with h1 h2
            subst h1
            have hb := utf8_decode_bounds M.get M.len st.s hM.2 hge s1 cp hdec
            exact ⟨⟨show (0 : Int) ≤ s1 by linarith [hs.1, hb.1], hb.2⟩, hstk, hmemo⟩
          · exact doFail_invPos M st st' ev ⟨hs, hstk, hmemo⟩ h
    · -- ITestAny
      split at h <;>
        (injection h with h1 h2; subst h1; exact ⟨hs, hstk, hmemo⟩)
    · -- IChar
      split at h
      · rename_i hc
        injection h with h1 h2
        subst h1
        exact ⟨⟨show (0 : Int) ≤ st.s + 1 by linarith [hs.1],
          show st.s + 1 ≤ M.len by linarith [hc.2]⟩, hstk, hmemo⟩
      · exact doFail_invPos M st st' ev ⟨hs, hstk, hmemo⟩ h
    · -- ITestChar
      split at h <;>
        (injection h with h1 h2; subst h1; exact ⟨hs, hstk, hmemo⟩)
    · -- ISet
      split at h
      · rename_i hc
        injection h with h1 h2
        subst h1
        exact ⟨⟨show (0 : Int) ≤ st.s + 1 by linarith [hs.1],
          show st.s + 1 ≤ M.len by linarith [hc.2]⟩, hstk, hmemo⟩
      · exact doFail_invPos M st st' ev ⟨hs, hstk, hmemo⟩ h
    · -- ITestSet
      split at h <;>
        (injection h with h1 h2; subst h1; exact ⟨hs, hstk, hmemo⟩)
    · -- IBehind
      split at h
      · exact doFail_invPos M st st' ev ⟨hs, hstk, hmemo⟩ h
      · rename_i hble
        push_neg at hble
        injection h with h1 h2
        subst h1
        have haux : (0 : Int) ≤ ((M.prog pi).aux : Int) := Int.ofNat_nonneg _
        exact ⟨⟨show (0 : Int) ≤ st.s - (M.prog pi).aux by linarith,
          show st.s - ((M.prog pi).aux : Int) ≤ M.len by linarith [hs.2]⟩, hstk, hmemo⟩
    · -- ISpan
      injection h with h1 h2
      subst h1
      have hb := spanEnd_bounds M.get M.len (M.prog (pi + 1)).buff (M.len - st.s).toNat st.s
      exact ⟨⟨show (0 : Int) ≤ spanEnd M.get M.len (M.prog (pi + 1)).buff (M.len - st.s).toNat st.s
          by linarith [hs.1, hb.1], hb.2 hs.2⟩, hstk, hmemo⟩
    · -- IJmp
      injection h with h1 h2
      subst h1
      exact ⟨hs, hstk, hmemo⟩
    · -- IChoice
      injection h with h1 h2
      subst h1
      refine ⟨hs, ?_, hmemo⟩
      intro g hg
      rcases List.mem_cons.mp hg with rfl | hg2
      · refine ⟨fun v hv => ?_, fun x hx => by simp at hx⟩
        injection hv with hv
        subst hv
        exact hs
      · exact hstk g hg2
    · -- ICall
      split at h
      · -- ordinary call
        injection h with h1 h2
        subst h1
        refine ⟨hs, ?_, hmemo⟩
        intro g hg
        rcases List.mem_cons.mp hg with rfl | hg2
        · exact ⟨fun v hv => by simp at hv, fun x hx => by simp at hx⟩
        · exact hstk g hg2
      · split at h
        · -- new memo entry
          injection h with h1 h2
          subst h1
          refine ⟨hs, ?_, ?_⟩
          · intro g hg
            rcases List.mem_cons.mp hg with rfl | hg2
            · refine ⟨fun v hv => ?_, fun x hx => by simp at hx⟩
              injection hv with hv
              subst hv
              exact hs
            · exact hstk g hg2
          · exact memoOK_set _ _ _ _ hmemo (Or.inl rfl)
        · rename_i en hen
          split at h
          · exact doFail_invPos M st st' ev ⟨hs, hstk, hmemo⟩ h
          · rename_i hcond
            split at h
            · simp at h
            · rename_i m1 c1 d1 hsp
              injection h with h1 h2
              subst h1
              push_neg at hcond
              have henX := hmemo _ (memoGet_mem st.memo _ en hen)
              refine ⟨?_, hstk, splice_memoOK M.len st.memo _ st.caps st.dyn m1 c1 d1 hsp hmemo⟩
              rcases henX with hbad | hok
              · exact absurd hbad hcond.1
              · exact hok
    · -- ICommit
      split at h
      · simp at h
      · rename_i fr rest hstkeq
        split at h
        · simp at h
        · injection h with h1 h2
          subst h1
          exact ⟨hs, fun g hg => hstk g (hstkeq ▸ List.mem_cons_of_mem fr hg), hmemo⟩
    · -- IPartialCommit
      split at h
      · simp at h
      · rename_i fr rest hstkeq
        split at h
        · simp at h
        · injection h with h1 h2
          subst h1
          have hfrOK := hstk fr (hstkeq ▸ List.mem_cons_self fr rest)
          refine ⟨hs, ?_, hmemo⟩
          intro g hg
          rcases List.mem_cons.mp hg with rfl | hg2
          · refine ⟨fun v hv => ?_, hfrOK.2⟩
            injection hv with hv
            subst hv
            exact hs
          · exact hstk g (hstkeq ▸ List.mem_cons_of_mem fr hg2)
    · -- IBackCommit
      split at h
      · simp at h
      · rename_i fr rest hstkeq
        split at h
        · simp at h
        · rename_i sv hsv
          injection h with h1 h2
          subst h1
          have hfrOK := hstk fr (hstkeq ▸ List.mem_cons_self fr rest)
          exact ⟨hfrOK.1 sv hsv,
            fun g hg => hstk g (hstkeq ▸ List.mem_cons_of_mem fr hg), hmemo⟩
    · -- IFailTwice
      split at h
      · simp at h
      · rename_i fr rest hstkeq
        refine doFail_invPos M { st with stack := rest } st' ev ⟨hs, ?_, hmemo⟩ h
        exact fun g hg => hstk g (hstkeq ▸ List.mem_cons_of_mem fr hg)
    · -- IFail
      exact doFail_invPos M st st' ev ⟨hs, hstk, hmemo⟩ h
    · -- IOpenCall
      simp at h
    · -- IEmpty
      simp at h
    · -- IFullCapture
      injection h with h1 h2
      subst h1
      exact ⟨hs, hstk, hmemo⟩
    · -- IOpenCapture
      injection h with h1 h2
      subst h1
      exact ⟨hs, hstk, hmemo⟩
    · -- ICloseCapture
      split at h
      · simp at h
      · split at h <;>
          (injection h with h1 h2; subst h1; exact ⟨hs, hstk, hmemo⟩)
    · -- ICloseRunTime
      exact closeRT_invPos M st st' ev pi hs hstk hmemo h

/-- Machines built from a byte list satisfy the byte-fetch contract:
the only nonzero bytes are strictly inside the subject. -/
theorem mkMachine_ok (l : List Instr) (sub : List Nat)
    (rt : Int → List Capture → List LuaVal) : MachineOK (mkMachine l sub rt) := by
  refine ⟨Int.ofNat_nonneg _, ?_⟩
  intro j hj
  simp only [mkMachine, stdGet] at hj
  by_cases h0 : 0 ≤ j
  · rw [if_pos h0] at hj
    have hlt : j.toNat < sub.length := by
      by_contra hge
      push_neg at hge
      rw [List.getD_eq_default _ _ hge] at hj
      exact hj rfl
    refine ⟨h0, ?_⟩
    simp only [mkMachine]
    omega
  · rw [if_neg h0] at hj
    exact absurd rfl hj

/-- The initial state satisfies the positional invariant when matching
starts inside the subject. -/
theorem initState_invPos (M : Machine) (s0 : Int) (h0 : 0 ≤ s0) (h1 : s0 ≤ M.len) :
    InvPos M (initState s0) := by
  refine ⟨⟨h0, h1⟩, ?_, ?_⟩
  · intro fr hfr
    simp only [initState, List.mem_singleton] at hfr
    subst hfr
    refine ⟨fun v hv => ?_, fun x hx => by simp at hx⟩
    injection hv with hv
    subst hv
    exact ⟨h0, h1⟩
  · intro e he
    simp [initState] at he

/-- The positional invariant holds in every reachable state. -/
theorem reachable_invPos (M : Machine) (hM : MachineOK M) (s0 : Int)
    (h0 : 0 ≤ s0) (h1 : s0 ≤ M.len) (st : State)
    (hr : Reachable M (initState s0) st) : InvPos M st := by
  induction hr with
  | refl => exact initState_invPos M s0 h0 h1
  | next hr hstep ih => exact step_invPos M hM _ _ _ ih hstep

/-- C4: for every program and subject (with the host-guaranteed NUL
terminator at `limit`) and every machine state reachable between two
instruction dispatches of a match started inside the subject, the
cursor satisfies `origin ≤ s ≤ limit`: no opcode (including `IUTFR`,
`IBehind`, `ISpan`) and no cursor update performed by backtracking or
by a `CloseRunTime` host result leaves the cursor strictly below
`origin` or strictly above `limit`. -/
theorem cursor_in_range (M : Machine) (hM : MachineOK M) (s0 : Int)
    (h0 : 0 ≤ s0) (h1 : s0 ≤ M.len) (st : State)
    (hr : Reachable M (initState s0) st) :
    0 ≤ st.s ∧ st.s ≤ M.len :=
  (reachable_invPos M hM s0 h0 h1 st hr).1

/-- Witness for C4 at a concrete machine and the initial state. -/
theorem cursor_in_range_witness :
    MachineOK c4M ∧ (0 : Int) ≤ 0 ∧ (0 : Int) ≤ c4M.len ∧
      (0 ≤ (initState 0).s ∧ (initState 0).s ≤ c4M.len) :=
  ⟨mkMachine_ok _ _ _, le_refl 0, by decide,
    cursor_in_range c4M (mkMachine_ok _ _ _) 0 (le_refl 0) (by decide)
      (initState 0) Reachable.refl⟩

/-! ## C8: FAIL is reached only through the sentinel -/

/-- Splitting the sentinel invariant at the top of the stack. -/
theorem sgo_head (fr : Frame) (rest : List Frame)
    (hsg : stackGiveupOK (fr :: rest)) :
    (fr.p = PC.giveup → rest = [] ∧ giveupFrameOK fr) ∧ stackGiveupOK rest := by
  cases rest with
  | nil => exact ⟨fun hp => ⟨rfl, hsg hp⟩, trivial⟩
  | cons b l => exact ⟨fun hp => absurd hp hsg.1, hsg.2⟩

/-- Pushing a frame that does not point at `giveup` preserves the
sentinel invariant. -/
theorem sgo_push (fr : Frame) (l : List Frame)
    (hfp : fr.p ≠ PC.giveup) (hsg : stackGiveupOK l) :
    stackGiveupOK (fr :: l) := by
  cases l with
  | nil => exact fun hp => absurd hp hfp
  | cons b l2 => exact ⟨hfp, hsg⟩

/-- Replacing the top frame with one at the same program pointer
preserves the sentinel invariant, provided the old frame had a
non-`NULL` seed (the sentinel's is `NULL`). -/
theorem sgo_retop (fr fr2 : Frame) (rest : List Frame)
    (hsg : stackGiveupOK (fr :: rest)) (hp : fr2.p = fr.p) (hX : fr.X ≠ XV.nul) :
    stackGiveupOK (fr2 :: rest) := by
  cases rest with
  | nil =>
    intro hgp
    rw [hp] at hgp
    exact absurd (hsg hgp).2.1 hX
  | cons b l => exact ⟨hp ▸ hsg.1, hsg.2⟩

/-- The fail loop keeps the sentinel invariant, and if it stops at the
sentinel frame then the whole stack is unwound. -/
theorem failPop_giveup (len : Int) :
    ∀ (stk : List Frame) memo cstk caps dyn fr rest m1 cstk1 c1 d1,
      stackGiveupOK stk →
      failPop len stk memo cstk caps dyn = some (fr, rest, m1, cstk1, c1, d1) →
      stackGiveupOK rest ∧ (fr.p = PC.giveup → rest = [] ∧ giveupFrameOK fr) := by
  intro stk
  induction stk with
  | nil => intro memo cstk caps dyn fr rest m1 cstk1 c1 d1 _ h; exact absurd h (by simp [failPop])
  | cons g stk ih =>
    intro memo cstk caps dyn fr rest m1 cstk1 c1 d1 hsg h
    have hhead := sgo_head g stk hsg
    simp only [failPop] at h
    by_cases hX : g.X = XV.lrfail
    · rw [if_pos hX] at h
      cases cstk with
      | nil =>
        obtain hgs | ⟨s0, hgs⟩ := Option.eq_none_or_eq_some g.s <;> rw [hgs] at h <;> simp at h
      | cons cd cs =>
        obtain ⟨c, d⟩ := cd
        obtain hgs | ⟨s0, hgs⟩ := Option.eq_none_or_eq_some g.s
        · rw [hgs] at h
          simp at h
        · rw [hgs] at h
          simp only at h
          exact ih _ _ _ _ _ _ _ _ _ _ hhead.2 h
    · rw [if_neg hX] at h
      obtain hgs | ⟨sv, hgs⟩ := Option.eq_none_or_eq_some g.s
      · rw [hgs] at h
        exact ih _ _ _ _ _ _ _ _ _ _ hhead.2 h
      · rw [hgs] at h
        simp only [Option.some.injEq, Prod.mk.injEq] at h
        obtain ⟨rfl, rfl, rfl, rfl, rfl, rfl⟩ := h
        exact ⟨hhead.2, hhead.1⟩

/-- The fail handler keeps the sentinel invariant: if it hands control
to the `giveup` instruction, the stack is fully unwound and the capture
log was truncated to the sentinel's `caplevel` of 0. -/
theorem doFail_inv8 (M : Machine) (st st' : State) (ev : Ev)
    (hsg : stackGiveupOK st.stack) (h : doFail M st = .next st' ev) : Inv8 st' := by
  unfold doFail at h
  split at h
  · simp at h
  · rename_i fr rest m1 cstk1 c1 d1 hfp
    obtain ⟨hsgr, hgu⟩ :=
      failPop_giveup M.len st.stack st.memo st.capStack st.caps st.dyn
        fr rest m1 cstk1 c1 d1 hsg hfp
    split at h
    · simp at h
    · rename_i sv hsv
      simp only [] at h
      split at h
      · rename_i x hxeq
        split at h
        · simp at h
        · rename_i c d cs
          split at h
          · simp at h
          · rename_i m2 c2 d2 hsp
            injection h with h1 h2
            subst h1
            refine ⟨hsgr, fun hp => ?_⟩
            have := (hgu hp).2.2.1
            rw [hxeq] at this
            exact absurd this (by simp)
      · injection h with h1 h2
        subst h1
        refine ⟨hsgr, fun hp => ?_⟩
        obtain ⟨hrest, hok⟩ := hgu hp
        exact ⟨hrest, by rw [hok.1]; simp⟩

/-- One dispatch preserves the sentinel invariant, provided the program
contains no `IGiveup` opcode and `IPartialCommit` never executes with
only the sentinel on the stack (compiled programs always have the
matching choice frame on top of it). -/
theorem step_inv8 (M : Machine) (hg : NoIGiveup M) (st st' : State) (ev : Ev)
    (hinv : Inv8 st)
    (hpc : ∀ pi, st.p = PC.idx pi → (M.prog pi).code = Opcode.IPartialCommit →
      st.stack.length ≠ 1)
    (h : step M st = .next st' ev) : Inv8 st' := by
  obtain ⟨hsg, hgv⟩ := hinv
  unfold step at h
  split at h
  · split at h <;> simp at h
  · rename_i pi hpi
    simp only [] at h
    split at h
    · -- IEnd
      split at h <;> simp at h
    · -- IGiveup opcode: impossible in the program
      rename_i heq
      exact absurd heq (hg pi)
    · -- IRet
      split at h
      · simp at h
      · rename_i fr rest hstkeq
        split at h
        · -- X = nul: ordinary return, frame had s = NULL, not the sentinel
          split at h
          · simp at h
          · rename_i hfs
            injection h with h1 h2
            subst h1
            have hhead := sgo_head fr rest (hstkeq ▸ hsg)
            refine ⟨hhead.2, fun hp => ?_⟩
            obtain ⟨-, hok⟩ := hhead.1 hp
            exact absurd hfs hok.2.2
        · -- growth
          rename_i hXeq
          unfold retGrow at h
          split at h
          · simp at h
          · rename_i s0 hs0
            simp only [] at h
            split at h
            · simp at h
            · injection h with h1 h2
              subst h1
              refine ⟨?_, fun hp => by simp at hp⟩
              exact sgo_retop fr _ rest (hstkeq ▸ hsg) rfl (by rw [hXeq]; simp)
        · -- inc.3
          rename_i x hXeq
          split at h
          · unfold retGrow at h
            split at h
            · simp at h
            · rename_i s0 hs0
              simp only [] at h
              split at h
              · simp at h
              · injection h with h1 h2
                subst h1
                refine ⟨?_, fun hp => by simp at hp⟩
                exact sgo_retop fr _ rest (hstkeq ▸ hsg) rfl (by rw [hXeq]; simp)
          · unfold retPopLR at h
            split at h
            · simp at h
            · rename_i s0 hs0
              split at h
              · simp at h
              · rename_i c d cs hcs
                simp only [] at h
                split at h
                · simp at h
                · rename_i m1 c1 d1 hsp
                  injection h with h1 h2
                  subst h1
                  have hhead := sgo_head fr rest (hstkeq ▸ hsg)
                  refine ⟨hhead.2, fun hp => ?_⟩
                  have := (hhead.1 hp).2.2.1
                  rw [hXeq] at this
                  exact absurd this (by simp)
    · -- IAny
      split at h
      · injection h with h1 h2
        subst h1
        exact ⟨hsg, fun hp => by simp at hp⟩
      · exact doFail_inv8 M st st' ev hsg h
    · -- IUTFR
      split at h
      · exact doFail_inv8 M st st' ev hsg h
      · split at h
        · exact doFail_inv8 M st st' ev hsg h
        · split at h
          · injection h with h1 h2
            subst h1
            exact ⟨hsg, fun hp => by simp at hp⟩
          · exact doFail_inv8 M st st' ev hsg h
    · -- ITestAny
      split at h <;>
        (injection h with h1 h2; subst h1; exact ⟨hsg, fun hp => by simp at hp⟩)
    · -- IChar
      split at h
      · injection h with h1 h2
        subst h1
        exact ⟨hsg, fun hp => by simp at hp⟩
      · exact doFail_inv8 M st st' ev hsg h
    · -- ITestChar
      split at h <;>
        (injection h with h1 h2; subst h1; exact ⟨hsg, fun hp => by simp at hp⟩)
    · -- ISet
      split at h
      · injection h with h1 h2
        subst h1
        exact ⟨hsg, fun hp => by simp at hp⟩
      · exact doFail_inv8 M st st' ev hsg h
    · -- ITestSet
      split at h <;>
        (injection h with h1 h2; subst h1; exact ⟨hsg, fun hp => by simp at hp⟩)
    · -- IBehind
      split at h
      · exact doFail_inv8 M st st' ev hsg h
      · injection h with h1 h2
        subst h1
        exact ⟨hsg, fun hp => by simp at hp⟩
    · -- ISpan
      injection h with h1 h2
      subst h1
      exact ⟨hsg, fun hp => by simp at hp⟩
    · -- IJmp
      injection h with h1 h2
      subst h1
      exact ⟨hsg, fun hp => by simp at hp⟩
    · -- IChoice
      injection h with h1 h2
      subst h1
      exact ⟨sgo_push _ _ (by simp) hsg, fun hp => by simp at hp⟩
    · -- ICall
      split at h
      · injection h with h1 h2
        subst h1
        exact ⟨sgo_push _ _ (by simp) hsg, fun hp => by simp at hp⟩
      · split at h
        · injection h with h1 h2
          subst h1
          exact ⟨sgo_push _ _ (by simp) hsg, fun hp => by simp at hp⟩
        · split at h
          · exact doFail_inv8 M st st' ev hsg h
          · split at h
            · simp at h
            · injection h with h1 h2
              subst h1
              exact ⟨hsg, fun hp => by simp at hp⟩
    · -- ICommit
      split at h
      · simp at h
      · rename_i fr rest hstkeq
        split at h
        · simp at h
        · injection h with h1 h2
          subst h1
          exact ⟨(sgo_head fr rest (hstkeq ▸ hsg)).2, fun hp => by simp at hp⟩
    · -- IPartialCommit
      split at h
      · simp at h
      · rename_i fr rest hstkeq
        split at h
        · simp at h
        · injection h with h1 h2
          subst h1
          refine ⟨?_, fun hp => by simp at hp⟩
          cases rest with
          | nil =>
            exact absurd (by rw [hstkeq]; rfl) (hpc pi hpi (by assumption))
          | cons b l =>
            have hsg2 := hstkeq ▸ hsg
            exact ⟨hsg2.1, hsg2.2⟩
    · -- IBackCommit
      split at h
      · simp at h
      · rename_i fr rest hstkeq
        split at h
        · simp at h
        · injection h with h1 h2
          subst h1
          exact ⟨(sgo_head fr rest (hstkeq ▸ hsg)).2, fun hp => by simp at hp⟩
    · -- IFailTwice
      split at h
      · simp at h
      · rename_i fr rest hstkeq
        exact doFail_inv8 M { st with stack := rest } st' ev
          (sgo_head fr rest (hstkeq ▸ hsg)).2 h
    · -- IFail
      exact doFail_inv8 M st st' ev hsg h
    · -- IOpenCall
      simp at h
    · -- IEmpty
      simp at h
    · -- IFullCapture
      injection h with h1 h2
      subst h1
      exact ⟨hsg, fun hp => by simp at hp⟩
    · -- IOpenCapture
      injection h with h1 h2
      subst h1
      exact ⟨hsg, fun hp => by simp at hp⟩
    · -- ICloseCapture
      split at h
      · simp at h
      · split at h <;>
          (injection h with h1 h2; subst h1; exact ⟨hsg, fun hp => by simp at hp⟩)
    · -- ICloseRunTime
      unfold closeRT at h
      split at h
      · simp at h
      · rename_i j hj
        simp only [] at h
        split at h
        · exact doFail_inv8 M
            { st with
                caps := st.caps.take (j + 1),
                dyn := st.dyn.take (st.dyn.length - countRuntime (st.caps.drop (j + 1))) }
            st' ev hsg h
        · simp at h
        · split at h
          · injection h with h1 h2
            subst h1
            exact ⟨hsg, fun hp => by simp at hp⟩
          · split at h
            · simp at h
            · split at h
              · simp at h
              · injection h with h1 h2
                subst h1
                exact ⟨hsg, fun hp => by simp at hp⟩

/-- The fail handler never returns a final result. -/
theorem doFail_ne_done (M : Machine) (st : State) (r : Option Int) :
    doFail M st ≠ .done r := by
  intro h
  unfold doFail at h
  split at h
  · simp at h
  · split at h
    · simp at h
    · simp only [] at h
      split at h
      · split at h
        · simp at h
        · split at h <;> simp at h
      · simp at h

/-- The `IRet` growth branch never returns a final result. -/
theorem retGrow_ne_done (M : Machine) (st : State) (fr : Frame) (rest : List Frame)
    (r : Option Int) : retGrow M st fr rest ≠ .done r := by
  intro h
  unfold retGrow at h
  split at h
  · simp at h
  · simp only [] at h
    split at h <;> simp at h

/-- The `IRet` non-growth branch never returns a final result. -/
theorem retPopLR_ne_done (M : Machine) (st : State) (fr : Frame) (rest : List Frame)
    (x : Int) (r : Option Int) : retPopLR M st fr rest x ≠ .done r := by
  intro h
  unfold retPopLR at h
  split at h
  · simp at h
  · split at h
    · simp at h
    · simp only [] at h
      split at h <;> simp at h

/-- The `ICloseRunTime` handler never returns a final result. -/
theorem closeRT_ne_done (M : Machine) (st : State) (pi : Int) (r : Option Int) :
    closeRT M st pi ≠ .done r := by
  intro h
  unfold closeRT at h
  split at h
  · simp at h
  · simp only [] at h
    split at h
    · exact doFail_ne_done _ _ _ h
    · simp at h
    · split at h
      · simp at h
      · split at h
        · simp at h
        · split at h <;> simp at h

/-- In a program without the `IGiveup` opcode, the interpreter reports
FAIL exactly when the program counter holds the static `giveup`
instruction with the whole stack (sentinel included) unwound. -/
theorem step_done_none_iff (M : Machine) (hg : NoIGiveup M) (st : State) :
    step M st = .done Option.none ↔ st.p = PC.giveup ∧ st.stack = [] := by
  constructor
  · intro h
    unfold step at h
    split at h
    · rename_i hpg
      split at h
      · exact ⟨hpg, by assumption⟩
      · simp at h
    · rename_i pi hpi
      simp only [] at h
      exfalso
      split at h
      · split at h <;> simp at h
      · rename_i heq
        exact absurd heq (hg pi)
      · split at h
        · simp at h
        · split at h
          · split at h <;> simp at h
          · exact retGrow_ne_done _ _ _ _ _ h
          · split at h
            · exact retGrow_ne_done _ _ _ _ _ h
            · exact retPopLR_ne_done _ _ _ _ _ _ h
      · split at h
        · simp at h
        · exact doFail_ne_done _ _ _ h
      · split at h
        · exact doFail_ne_done _ _ _ h
        · split at h
          · exact doFail_ne_done _ _ _ h
          · split at h
            · simp at h
            · exact doFail_ne_done _ _ _ h
      · split at h <;> simp at h
      · split at h
        · simp at h
        · exact doFail_ne_done _ _ _ h
      · split at h <;> simp at h
      · split at h
        · simp at h
        · exact doFail_ne_done _ _ _ h
      · split at h <;> simp at h
      · split at h
        · exact doFail_ne_done _ _ _ h
        · simp at h
      · simp at h
      · simp at h
      · simp at h
      · split at h
        · simp at h
        · split at h
          · simp at h
          · split at h
            · exact doFail_ne_done _ _ _ h
            · split at h <;> simp at h
      · split at h
        · simp at h
        · split at h <;> simp at h
      · split at h
        · simp at h
        · split at h <;> simp at h
      · split at h
        · simp at h
        · split at h <;> simp at h
      · split at h
        · simp at h
        · exact doFail_ne_done _ _ _ h
      · exact doFail_ne_done _ _ _ h
      · simp at h
      · simp at h
      · simp at h
      · simp at h
      · split at h
        · simp at h
        · split at h <;> simp at h
      · exact closeRT_ne_done _ _ _ _ h
  · rintro ⟨hp, hstk⟩
    simp [step, hp, hstk]

/-- The initial state satisfies the sentinel invariant. -/
theorem initState_inv8 (s0 : Int) : Inv8 (initState s0) := by
  refine ⟨?_, fun hp => by simp [initState] at hp⟩
  intro hp
  exact ⟨rfl, rfl, by simp⟩

/-- C8: in a run of a compiled program (no `IGiveup` opcode in the
program, and `IPartialCommit` never executed with only the sentinel on
the stack), `match` returns FAIL exactly when backtracking has popped
down to the sentinel frame at the bottom of the stack — whose saved
program pointer is the `giveup` instruction — and at that moment
`captop` has been reset to the sentinel's `caplevel` of 0, so on every
FAIL result the capture log is empty. -/
theorem fail_exactly_at_sentinel (M : Machine) (hg : NoIGiveup M) (s0 : Int)
    (st : State) (hr : Reachable M (initState s0) st)
    (hpc : ∀ st2, Reachable M (initState s0) st2 →
      ∀ pi, st2.p = PC.idx pi → (M.prog pi).code = Opcode.IPartialCommit →
      st2.stack.length ≠ 1) :
    (step M st = .done Option.none ↔ st.p = PC.giveup ∧ st.stack = []) ∧
    (st.p = PC.giveup → st.caps = []) := by
  have hinv : Inv8 st := by
    induction hr with
    | refl => exact initState_inv8 s0
    | next hr2 hstep ih =>
      exact step_inv8 M hg _ _ _ ih (hpc _ hr2) hstep
  exact ⟨step_done_none_iff M hg st, fun hp => (hinv.2 hp).2⟩

/-- Witness for C8: a concrete program without `IGiveup` or
`IPartialCommit`; at the initial state the FAIL characterisation and
the empty-log guarantee hold. -/
theorem fail_exactly_at_sentinel_witness :
    NoIGiveup c4M ∧
    ((step c4M (initState 0) = .done Option.none ↔
        (initState 0).p = PC.giveup ∧ (initState 0).stack = []) ∧
      ((initState 0).p = PC.giveup → (initState 0).caps = [])) := by
  have hg : NoIGiveup c4M := by
    intro i
    simp only [c4M, mkMachine, progOfList]
    split
    · match hn : i.toNat with
      | 0 => simp [List.getD, inst]
      | n + 1 => simp [List.getD, defaultInstr]
    · simp [defaultInstr]
  have hpc : ∀ st2, Reachable c4M (initState 0) st2 →
      ∀ pi, st2.p = PC.idx pi → (c4M.prog pi).code = Opcode.IPartialCommit →
      st2.stack.length ≠ 1 := by
    intro st2 _ pi _ hcode
    exfalso
    revert hcode
    simp only [c4M, mkMachine, progOfList]
    split
    · match hn : pi.toNat with
      | 0 => simp [List.getD, inst]
      | n + 1 => simp [List.getD, defaultInstr]
    · simp [defaultInstr]
  exact ⟨hg, fail_exactly_at_sentinel c4M hg 0 (initState 0) Reachable.refl hpc⟩

/-! ## C9: dynamic-capture accounting -/

/-- States produced by bounded runs are reachable. -/
theorem reachable_trans (M : Machine) (a b c : State)
    (h1 : Reachable M a b) (h2 : Reachable M b c) : Reachable M a c := by
  induction h2 with
  | refl => exact h1
  | next hr hstep ih => exact Reachable.next ih hstep

theorem runN_reachable (M : Machine) :
    ∀ (n : Nat) (st st2 : State), runN M n st = some st2 → Reachable M st st2 := by
  intro n
  induction n with
  | zero =>
    intro st st2 h
    injection h with h
    subst h
    exact Reachable.refl
  | succ n ih =>
    intro st st2 h
    unfold runN at h
    split at h
    · rename_i st1 ev hstep
      exact reachable_trans M st st1 st2 (Reachable.next Reachable.refl hstep) (ih st1 st2 h)
    · simp at h

/-- C9, the code at the failing input: running
`Choice; OpenCapture(group); CloseRunTime; BackCommit` with a host
callback that returns `true` plus one extra value leaves the machine —
between two instruction dispatches — with one dynamic capture on the
host stack (`ndyncap = 1`) while the capture log holds no runtime-kind
event at all (`captop = 0`): `IBackCommit` truncated `captop` to the
choice frame's `caplevel` without removing the dynamic capture, so both
`ndyncap ≤ captop` and the counting equality fail (the dispatch-loop
assertion of lpvm.c line 380 is violated). -/
theorem backcommit_dyncap_violation :
    ((runN backCommitM 4 (initState 0)).map
      (fun st => (st.dyn.length, countRuntime st.caps, st.caps.length)) = some (1, 0, 0)) ∧
    (∀ st2, runN backCommitM 4 (initState 0) = some st2 →
      Reachable backCommitM (initState 0) st2 ∧ st2.caps.length < st2.dyn.length) := by
  refine ⟨by decide, fun st2 h => ⟨runN_reachable _ _ _ _ h, ?_⟩⟩
  have h2 : (some st2).map
      (fun st => (st.dyn.length, countRuntime st.caps, st.caps.length)) = some (1, 0, 0) := by
    rw [← h]
    decide
  have h3 : st2.dyn.length = 1 ∧ countRuntime st2.caps = 0 ∧ st2.caps.length = 0 := by
    simpa using h2
  omega

/-! ## C6: left-recursion growth iterations -/

/-- C6, counterexample.  For the grammar `A <- A 'x' / lpeg.B(1)` on
the subject "xx" with matching started at position 1, the memo entry
for the head instance `(pA = 4, s0 = 1)` — key
`lambdaindex 2 4 1 = 9` — is created on the first dispatch and stays
alive over the following 18 dispatches, during which the `Ret` growth
branch re-enters the head 3 times: the first seed ends at position 0
(`Behind 1` moved the cursor below the call site), and the seed then
grows to 1 and to 2.  The claim's bound is
`limit - s0 + 1 = 2 - 1 + 1 = 2 < 3`. -/
theorem behind_growth_exceeds_bound :
    ((runN behindGrowM 1 (initState 1)).map (fun st1 =>
      (aliveKey behindGrowM 18 st1 9, growthCountKey behindGrowM 18 st1 9)) =
        some (true, 3)) ∧
    lambdaindex behindGrowM.len 4 1 = 9 ∧
    behindGrowM.len - 1 + 1 < 3 :=
  ⟨by decide, by decide, by decide⟩

/-- A frame found at a depth witnesses that the stack is at least that
tall, and is one of the stack's frames. -/
theorem atDepth_lt (l : List Frame) (d : Nat) (fr : Frame)
    (h : atDepth l d = some fr) : d < l.length := by
  unfold atDepth at h
  obtain ⟨hlt, -⟩ := List.get?_eq_some.mp h
  simpa using hlt

theorem atDepth_mem (l : List Frame) (d : Nat) (fr : Frame)
    (h : atDepth l d = some fr) : fr ∈ l := by
  unfold atDepth at h
  exact List.mem_reverse.mp (List.get?_mem h)

theorem atDepth_cons_lt (a : Frame) (l : List Frame) (d : Nat) (hd : d < l.length) :
    atDepth (a :: l) d = atDepth l d := by
  unfold atDepth
  rw [List.reverse_cons, List.get?_append (by simpa using hd)]

theorem atDepth_cons_top (a : Frame) (l : List Frame) :
    atDepth (a :: l) l.length = some a := by
  unfold atDepth
  rw [List.reverse_cons, List.get?_append_right (by simp)]
  simp

theorem atDepth_append_right (junk l : List Frame) (d : Nat) (hd : d < l.length) :
    atDepth (junk ++ l) d = atDepth l d := by
  unfold atDepth
  rw [List.reverse_append, List.get?_append (by simpa using hd)]

theorem atDepth_isSome (l : List Frame) (d : Nat) (hd : d < l.length) :
    ∃ fr, atDepth l d = some fr := by
  unfold atDepth
  rw [List.get?_eq_get (by simpa using hd)]
  exact ⟨_, rfl⟩

/-- Monotonicity transfer when the stack is unchanged. -/
theorem xmono_same (l : List Frame) (d : Nat) (fr : Frame)
    (hfr : atDepth l d = some fr) :
    ∀ fr', atDepth l d = some fr' → xint fr.X ≤ xint fr'.X := by
  intro fr' hfr'
  rw [hfr] at hfr'
  injection hfr' with e
  rw [e]

/-- Monotonicity transfer when frames above the depth were popped. -/
theorem xmono_pop (pre l : List Frame) (d : Nat) (fr : Frame)
    (hfr : atDepth (pre ++ l) d = some fr) :
    ∀ fr', atDepth l d = some fr' → xint fr.X ≤ xint fr'.X := by
  intro fr' hfr'
  rw [atDepth_append_right pre l d (atDepth_lt _ _ _ hfr'), hfr'] at hfr
  injection hfr with e
  rw [e]

/-- Monotonicity transfer when a frame was pushed on top. -/
theorem xmono_push (a : Frame) (l : List Frame) (d : Nat) (fr : Frame)
    (hfr : atDepth l d = some fr) :
    ∀ fr', atDepth (a :: l) d = some fr' → xint fr.X ≤ xint fr'.X := by
  intro fr' hfr'
  rw [atDepth_cons_lt a l d (atDepth_lt l d fr hfr), hfr] at hfr'
  injection hfr' with e
  rw [e]

/-- Monotonicity transfer when the top frame was replaced by one with a
seed at least as large. -/
theorem xmono_swap (a b : Frame) (rest : List Frame) (d : Nat) (fr : Frame)
    (hfr : atDepth (a :: rest) d = some fr) (hX : xint a.X ≤ xint b.X) :
    ∀ fr', atDepth (b :: rest) d = some fr' → xint fr.X ≤ xint fr'.X := by
  intro fr' hfr'
  have hd := atDepth_lt _ _ _ hfr
  simp only [List.length_cons] at hd
  rcases lt_or_eq_of_le (Nat.lt_succ_iff.mp hd) with hlt | heq
  · rw [atDepth_cons_lt a rest d hlt] at hfr
    rw [atDepth_cons_lt b rest d hlt, hfr] at hfr'
    injection hfr' with e
    rw [e]
  · rw [heq, atDepth_cons_top] at hfr hfr'
    injection hfr with e1
    injection hfr' with e2
    rw [← e1, ← e2]
    exact hX

/-- The fail loop only removes frames: the remaining stack is a strict
suffix of the original one, below the stopping frame. -/
theorem failPop_suffix (len : Int) :
    ∀ (stk : List Frame) memo cstk caps dyn fr rest m1 cstk1 c1 d1,
      failPop len stk memo cstk caps dyn = some (fr, rest, m1, cstk1, c1, d1) →
      ∃ junk, stk = junk ++ fr :: rest := by
  intro stk
  induction stk with
  | nil => intro memo cstk caps dyn fr rest m1 cstk1 c1 d1 h; exact absurd h (by simp [failPop])
  | cons g stk ih =>
    intro memo cstk caps dyn fr rest m1 cstk1 c1 d1 h
    simp only [failPop] at h
    by_cases hX : g.X = XV.lrfail
    · rw [if_pos hX] at h
      cases cstk with
      | nil =>
        obtain hgs | ⟨s0, hgs⟩ := Option.eq_none_or_eq_some g.s <;> rw [hgs] at h <;> simp at h
      | cons cd cs =>
        obtain ⟨c, d⟩ := cd
        obtain hgs | ⟨s0, hgs⟩ := Option.eq_none_or_eq_some g.s
        · rw [hgs] at h
          simp at h
        · rw [hgs] at h
          simp only at h
          obtain ⟨junk, hj⟩ := ih _ _ _ _ _ _ _ _ _ _ h
          exact ⟨g :: junk, by rw [hj]; rfl⟩
    · rw [if_neg hX] at h
      obtain hgs | ⟨sv, hgs⟩ := Option.eq_none_or_eq_some g.s
      · rw [hgs] at h
        obtain ⟨junk, hj⟩ := ih _ _ _ _ _ _ _ _ _ _ h
        exact ⟨g :: junk, by rw [hj]; rfl⟩
      · rw [hgs] at h
        simp only [Option.some.injEq, Prod.mk.injEq] at h
        obtain ⟨rfl, rfl, rfl, rfl, rfl, rfl⟩ := h
        exact ⟨[], rfl⟩

/-- The fail handler pops frames (never pushes or edits) and emits no
growth event. -/
theorem doFail_stack (M : Machine) (st st' : State) (ev : Ev)
    (h : doFail M st = .next st' ev) :
    (∃ junk fr0, st.stack = junk ++ fr0 :: st'.stack) ∧ ev = Ev.none := by
  unfold doFail at h
  split at h
  · simp at h
  · rename_i fr rest m1 cstk1 c1 d1 hfp
    obtain ⟨junk, hj⟩ :=
      failPop_suffix M.len st.stack st.memo st.capStack st.caps st.dyn
        fr rest m1 cstk1 c1 d1 hfp
    split at h
    · simp at h
    · rename_i sv hsv
      simp only [] at h
      split at h
      · rename_i x hxeq
        split at h
        · simp at h
        · rename_i c d cs
          split at h
          · simp at h
          · rename_i m2 c2 d2 hsp
            injection h with h1 h2
            subst h1
            exact ⟨⟨junk, fr, hj⟩, h2.symm⟩
      · injection h with h1 h2
        subst h1
        exact ⟨⟨junk, fr, hj⟩, h2.symm⟩

/-- The fail handler only lowers the stack, so the frame at any
surviving depth is untouched, and failing is never a growth event. -/
theorem doFail_atDepth (M : Machine) (st st' : State) (ev : Ev) (d : Nat) (fr : Frame)
    (h : doFail M st = .next st' ev) (hfr : atDepth st.stack d = some fr) :
    (∀ fr', atDepth st'.stack d = some fr' → xint fr.X ≤ xint fr'.X) ∧ ev = Ev.none := by
  obtain ⟨⟨junk, fr0, hshape⟩, hev⟩ := doFail_stack M st st' ev h
  refine ⟨?_, hev⟩
  have hshape2 : st.stack = (junk ++ [fr0]) ++ st'.stack := by
    rw [hshape]
    simp
  exact xmono_pop (junk ++ [fr0]) st'.stack d fr (hshape2 ▸ hfr)

/-- A growth iteration replaces the top frame's seed with the strictly
larger current cursor and touches no other frame. -/
theorem retGrow_atDepth (M : Machine) (st st' : State) (ev : Ev) (d : Nat)
    (fr fr0 : Frame) (rest : List Frame)
    (hinv : InvPos M st) (hstkeq : st.stack = fr0 :: rest)
    (hXgt : xint fr0.X < st.s)
    (h : retGrow M st fr0 rest = .next st' ev)
    (hfr : atDepth st.stack d = some fr) :
    (∀ fr', atDepth st'.stack d = some fr' → xint fr.X ≤ xint fr'.X) ∧
    (st.stack.length = d + 1 →
      st'.stack.length = d + 1 ∧
      (∀ fr', atDepth st'.stack d = some fr' → fr'.X = XV.pos st.s) ∧
      xint fr.X < st.s ∧ st.s ≤ M.len) := by
  unfold retGrow at h
  split at h
  · simp at h
  · rename_i s0 hs0
    simp only [] at h
    split at h
    · simp at h
    · rename_i en hen
      injection h with h1 h2
      subst h1
      constructor
      · exact xmono_swap fr0 _ rest d fr (hstkeq ▸ hfr) (le_of_lt hXgt)
      · intro hlen
        rw [hstkeq] at hlen
        simp only [List.length_cons] at hlen
        have hd : d = rest.length := by omega
        subst hd
        have hfr0 : fr = fr0 := by
          rw [hstkeq, atDepth_cons_top] at hfr
          injection hfr with e
          exact e.symm
        refine ⟨by simp, ?_, by rw [hfr0]; exact hXgt, hinv.1.2⟩
        intro fr' hfr'
        rw [atDepth_cons_top] at hfr'
        injection hfr' with e
        rw [← e]

/-- One dispatch never lowers the seed of the frame at any depth, and a
growth event at the top strictly raises it to the (in-range) cursor. -/
theorem step_atDepth_mono (M : Machine) (st st' : State) (ev : Ev) (d : Nat)
    (hinv : InvPos M st) (h : step M st = .next st' ev)
    (fr : Frame) (hfr : atDepth st.stack d = some fr) :
    (∀ fr', atDepth st'.stack d = some fr' → xint fr.X ≤ xint fr'.X) ∧
    (ev ≠ Ev.none → st.stack.length = d + 1 →
      st'.stack.length = d + 1 ∧
      (∀ fr', atDepth st'.stack d = some fr' → fr'.X = XV.pos st.s) ∧
      xint fr.X < st.s ∧ st.s ≤ M.len) := by
  unfold step at h
  split at h
  · split at h <;> simp at h
  · rename_i pi hpi
    simp only [] at h
    split at h
    · split at h <;> simp at h
    · split at h <;> simp at h
    · -- IRet
      split at h
      · simp at h
      · rename_i fr0 rest hstkeq
        split at h
        · split at h
          · simp at h
          · injection h with h1 h2
            subst h1
            refine ⟨?_, fun hne _ => absurd h2.symm hne⟩
            exact xmono_pop [fr0] rest d fr (by rw [hstkeq] at hfr; exact hfr)
        · rename_i hXeq
          have hgt : xint fr0.X < st.s := by
            rw [hXeq]
            simp only [xint]
            linarith [hinv.1.1]
          obtain ⟨hm, hgrow⟩ := retGrow_atDepth M st st' ev d fr fr0 rest hinv hstkeq hgt h hfr
          exact ⟨hm, fun _ => hgrow⟩
        · rename_i x hXeq
          split at h
          · rename_i hgt0
            have hgt : xint fr0.X < st.s := by
              rw [hXeq]
              exact hgt0
            obtain ⟨hm, hgrow⟩ := retGrow_atDepth M st st' ev d fr fr0 rest hinv hstkeq hgt h hfr
            exact ⟨hm, fun _ => hgrow⟩
          · -- retPopLR: pops one frame
            unfold retPopLR at h
            split at h
            · simp at h
            · rename_i s0 hs0
              split at h
              · simp at h
              · rename_i c dd cs hcs
                simp only [] at h
                split at h
                · simp at h
                · rename_i m1 c1 d1 hsp
                  injection h with h1 h2
                  subst h1
                  refine ⟨?_, fun hne _ => absurd h2.symm hne⟩
                  exact xmono_pop [fr0] rest d fr (by rw [hstkeq] at hfr; exact hfr)
    · -- IAny
      split at h
      · injection h with h1 h2
        subst h1
        exact ⟨xmono_same st.stack d fr hfr, fun hne _ => absurd h2.symm hne⟩
      · obtain ⟨hm, hev⟩ := doFail_atDepth M st st' ev d fr h hfr
        exact ⟨hm, fun hne _ => absurd hev hne⟩
    · -- IUTFR
      split at h
      · obtain ⟨hm, hev⟩ := doFail_atDepth M st st' ev d fr h hfr
        exact ⟨hm, fun hne _ => absurd hev hne⟩
      · split at h
        · obtain ⟨hm, hev⟩ := doFail_atDepth M st st' ev d fr h hfr
          exact ⟨hm, fun hne _ => absurd hev hne⟩
        · split at h
          · injection h with h1 h2
            subst h1
            exact ⟨xmono_same st.stack d fr hfr, fun hne _ => absurd h2.symm hne⟩
          · obtain ⟨hm, hev⟩ := doFail_atDepth M st st' ev d fr h hfr
            exact ⟨hm, fun hne _ => absurd hev hne⟩
    · -- ITestAny
      split at h <;>
        (injection h with h1 h2; subst h1;
          exact ⟨xmono_same st.stack d fr hfr, fun hne _ => absurd h2.symm hne⟩)
    · -- IChar
      split at h
      · injection h with h1 h2
        subst h1
        exact ⟨xmono_same st.stack d fr hfr, fun hne _ => absurd h2.symm hne⟩
      · obtain ⟨hm, hev⟩ := doFail_atDepth M st st' ev d fr h hfr
        exact ⟨hm, fun hne _ => absurd hev hne⟩
    · -- ITestChar
      split at h <;>
        (injection h with h1 h2; subst h1;
          exact ⟨xmono_same st.stack d fr hfr, fun hne _ => absurd h2.symm hne⟩)
    · -- ISet
      split at h
      · injection h with h1 h2
        subst h1
        exact ⟨xmono_same st.stack d fr hfr, fun hne _ => absurd h2.symm hne⟩
      · obtain ⟨hm, hev⟩ := doFail_atDepth M st st' ev d fr h hfr
        exact ⟨hm, fun hne _ => absurd hev hne⟩
    · -- ITestSet
      split at h <;>
        (injection h with h1 h2; subst h1;
          exact ⟨xmono_same st.stack d fr hfr, fun hne _ => absurd h2.symm hne⟩)
    · -- IBehind
      split at h
      · obtain ⟨hm, hev⟩ := doFail_atDepth M st st' ev d fr h hfr
        exact ⟨hm, fun hne _ => absurd hev hne⟩
      · injection h with h1 h2
        subst h1
        exact ⟨xmono_same st.stack d fr hfr, fun hne _ => absurd h2.symm hne⟩
    · -- ISpan
      injection h with h1 h2
      subst h1
      exact ⟨xmono_same st.stack d fr hfr, fun hne _ => absurd h2.symm hne⟩
    · -- IJmp
      injection h with h1 h2
      subst h1
      exact ⟨xmono_same st.stack d fr hfr, fun hne _ => absurd h2.symm hne⟩
    · -- IChoice
      injection h with h1 h2
      subst h1
      exact ⟨xmono_push _ st.stack d fr hfr, fun hne _ => absurd h2.symm hne⟩
    · -- ICall
      split at h
      · injection h with h1 h2
        subst h1
        exact ⟨xmono_push _ st.stack d fr hfr, fun hne _ => absurd h2.symm hne⟩
      · split at h
        · injection h with h1 h2
          subst h1
          exact ⟨xmono_push _ st.stack d fr hfr, fun hne _ => absurd h2.symm hne⟩
        · split at h
          · obtain ⟨hm, hev⟩ := doFail_atDepth M st st' ev d fr h hfr
            exact ⟨hm, fun hne _ => absurd hev hne⟩
          · split at h
            · simp at h
            · injection h with h1 h2
              subst h1
              exact ⟨xmono_same st.stack d fr hfr, fun hne _ => absurd h2.symm hne⟩
    · -- ICommit
      split at h
      · simp at h
      · rename_i fr0 rest hstkeq
        split at h
        · simp at h
        · injection h with h1 h2
          subst h1
          exact ⟨xmono_pop [fr0] rest d fr (by rw [hstkeq] at hfr; exact hfr),
            fun hne _ => absurd h2.symm hne⟩
    · -- IPartialCommit
      split at h
      · simp at h
      · rename_i fr0 rest hstkeq
        split at h
        · simp at h
        · injection h with h1 h2
          subst h1
          exact ⟨xmono_swap fr0 _ rest d fr (hstkeq ▸ hfr) (le_refl _),
            fun hne _ => absurd h2.symm hne⟩
    · -- IBackCommit
      split at h
      · simp at h
      · rename_i fr0 rest hstkeq
        split at h
        · simp at h
        · injection h with h1 h2
          subst h1
          exact ⟨xmono_pop [fr0] rest d fr (by rw [hstkeq] at hfr; exact hfr),
            fun hne _ => absurd h2.symm hne⟩
    · -- IFailTwice
      split at h
      · simp at h
      · rename_i fr0 rest hstkeq
        obtain ⟨⟨junk, frS, hshape⟩, hev⟩ := doFail_stack M { st with stack := rest } st' ev h
        refine ⟨?_, fun hne _ => absurd hev hne⟩
        have hshape2 : st.stack = (fr0 :: junk ++ [frS]) ++ st'.stack := by
          rw [hstkeq]
          simp only at hshape
          rw [hshape]
          simp
        exact xmono_pop _ st'.stack d fr (hshape2 ▸ hfr)
    · -- IFail
      obtain ⟨hm, hev⟩ := doFail_atDepth M st st' ev d fr h hfr
      exact ⟨hm, fun hne _ => absurd hev hne⟩
    · -- IOpenCall
      simp at h
    · -- IEmpty
      simp at h
    · -- IFullCapture
      injection h with h1 h2
      subst h1
      exact ⟨xmono_same st.stack d fr hfr, fun hne _ => absurd h2.symm hne⟩
    · -- IOpenCapture
      injection h with h1 h2
      subst h1
      exact ⟨xmono_same st.stack d fr hfr, fun hne _ => absurd h2.symm hne⟩
    · -- ICloseCapture
      split at h
      · simp at h
      · split at h <;>
          (injection h with h1 h2; subst h1;
            exact ⟨xmono_same st.stack d fr hfr, fun hne _ => absurd h2.symm hne⟩)
    · -- ICloseRunTime
      unfold closeRT at h
      split at h
      · simp at h
      · rename_i j hj
        simp only [] at h
        split at h
        · obtain ⟨hm, hev⟩ := doFail_atDepth M
            { st with
                caps := st.caps.take (j + 1),
                dyn := st.dyn.take (st.dyn.length - countRuntime (st.caps.drop (j + 1))) }
            st' ev d fr h hfr
          exact ⟨hm, fun hne _ => absurd hev hne⟩
        · simp at h
        · split at h
          · injection h with h1 h2
            subst h1
            exact ⟨xmono_same st.stack d fr hfr, fun hne _ => absurd h2.symm hne⟩
          · split at h
            · simp at h
            · split at h
              · simp at h
              · injection h with h1 h2
                subst h1
                exact ⟨xmono_same st.stack d fr hfr, fun hne _ => absurd h2.symm hne⟩

/-- A frame's seed value never exceeds the subject length. -/
theorem xint_le_len (len : Int) (fr : Frame) (h0 : 0 ≤ len)
    (hfr : frameOK len fr) : xint fr.X ≤ len := by
  cases hX : fr.X with
  | nul => simp only [xint]; omega
  | lrfail => simp only [xint]; omega
  | pos x =>
    simp only [xint]
    exact (hfr.2 x hX).2

/-- Once the stack drops below the watched depth, no further growth
iterations are counted. -/
theorem growthAtDepth_shallow (M : Machine) (n : Nat) (st : State) (d : Nat)
    (h : st.stack.length < d + 1) : growthAtDepth M n st d = 0 := by
  cases n with
  | zero => rfl
  | succ n =>
    unfold growthAtDepth
    rw [if_pos h]

/-- Each growth iteration counted at depth `d` strictly raises the seed
of the frame at that depth, which stays at most `len`: the count along
any run is bounded by `len - X`. -/
theorem growthAtDepth_le (M : Machine) (hM : MachineOK M) (n : Nat) (st : State)
    (d : Nat) (hinv : InvPos M st) (fr : Frame)
    (hfr : atDepth st.stack d = some fr) :
    (growthAtDepth M n st d : Int) ≤ M.len - xint fr.X := by
  have hxle : xint fr.X ≤ M.len :=
    xint_le_len M.len fr hM.1 (hinv.2.1 fr (atDepth_mem _ _ _ hfr))
  induction n generalizing st fr with
  | zero =>
    simp only [growthAtDepth, Nat.cast_zero]
    omega
  | succ n ih =>
    unfold growthAtDepth
    split
    · simp only [Nat.cast_zero]
      omega
    · rename_i hdeep
      split
      · rename_i st' ev hstep
        have hinv' := step_invPos M hM st st' ev hinv hstep
        obtain ⟨hmono, hgrow⟩ := step_atDepth_mono M st st' ev d hinv hstep fr hfr
        by_cases hc : st.stack.length = d + 1 ∧ ev ≠ Ev.none
        · rw [if_pos hc]
          obtain ⟨hlen', hchar, hlt, hsle⟩ := hgrow hc.2 hc.1
          obtain ⟨fr', hfr'⟩ := atDepth_isSome st'.stack d (by omega)
          have hX' : fr'.X = XV.pos st.s := hchar fr' hfr'
          have hx' : xint fr'.X = st.s := by rw [hX']; rfl
          have hrec := ih st' hinv' fr' hfr'
            (by rw [hx']; exact hsle)
          push_cast
          omega
        · rw [if_neg hc]
          by_cases hd' : d < st'.stack.length
          · obtain ⟨fr', hfr'⟩ := atDepth_isSome st'.stack d hd'
            have hle := hmono fr' hfr'
            have hxle' : xint fr'.X ≤ M.len :=
              xint_le_len M.len fr' hM.1 (hinv'.2.1 fr' (atDepth_mem _ _ _ hfr'))
            have hrec := ih st' hinv' fr' hfr' hxle'
            push_cast
            omega
          · rw [growthAtDepth_shallow M n st' d (by omega)]
            simp only [Nat.cast_zero, Nat.cast_ite, Nat.cast_one, Nat.add_zero]
            have : (if st.stack.length = d + 1 ∧ ev ≠ Ev.none then (1:Nat) else 0) ≤ 1 := by
              split <;> omega
            push_cast
            omega
      · simp only [Nat.cast_zero]
        omega

/-- A frame's seed value is at least `LRFAIL`. -/
theorem xint_ge (len : Int) (fr : Frame) (hfr : frameOK len fr) :
    -1 ≤ xint fr.X := by
  cases hX : fr.X with
  | nul => simp [xint]
  | lrfail => simp [xint]
  | pos x =>
    simp only [xint]
    linarith [(hfr.2 x hX).1]

/-- C6 (amended).  Per stack-frame instance, left-recursion growth is
bounded: from any reachable state, the number of `Ret` growth iterations
performed while the left-recursive frame at a fixed stack depth `d`
stays on the stack is at most `limit - origin + 1`, because each growth
iteration strictly increases that frame's stored seed `X` (to the
current cursor, which stays at most `limit`) and no step ever decreases
it.  (The claim's per-key bound `limit - s0 + 1` fails: `IBehind` can
move the first seed below `s0`, see the counterexample.) -/
theorem growth_iterations_bounded (M : Machine) (hM : MachineOK M)
    (s0 : Int) (h0 : 0 ≤ s0) (h1 : s0 ≤ M.len)
    (st : State) (hr : Reachable M (initState s0) st) (n d : Nat) :
    (growthAtDepth M n st d : Int) ≤ M.len + 1 := by
  by_cases hd : d < st.stack.length
  · obtain ⟨fr, hfr⟩ := atDepth_isSome st.stack d hd
    have hinv := reachable_invPos M hM s0 h0 h1 st hr
    have hfrOK := hinv.2.1 fr (atDepth_mem _ _ _ hfr)
    have hb := growthAtDepth_le M hM n st d hinv fr hfr
    have hx := xint_ge M.len fr hfrOK
    omega
  · rw [growthAtDepth_shallow M n st d (by omega)]
    have := hM.1
    push_cast
    omega

/-- The amended bound at the concrete left-recursive machine of the
counterexample: the frame pushed by the first `ICall` (depth 1) sees
exactly 3 growth iterations, meeting the bound `len + 1 = 3` exactly. -/
theorem growth_iterations_bounded_witness :
    runN behindGrowM 1 (initState 1) = some c6st ∧
    growthAtDepth behindGrowM 30 c6st 1 = 3 ∧
    (growthAtDepth behindGrowM 30 c6st 1 : Int) ≤ behindGrowM.len + 1 :=
  ⟨by decide, by decide,
    growth_iterations_bounded behindGrowM (mkMachine_ok _ _ _) 1 (by decide) (by decide)
      c6st (runN_reachable behindGrowM 1 (initState 1) c6st (by decide)) 30 1⟩

/-! ## C10: the byte read at the limit never decides the branch -/

/-- The fail handler only consults the program, the length and the
machine state, never the subject bytes or the host callback. -/
theorem doFail_congr (M M' : Machine) (st : State) (h : M.len = M'.len) :
    doFail M st = doFail M' st := by
  unfold doFail
  rw [h]

/-- C10: with the cursor at `limit`, the `Char`, `Set`, `TestChar` and
`TestSet` handlers read the subject byte at `limit` before evaluating
the `s < limit` guard, but the branch taken — fail for `Char`/`Set`,
the offset jump for `TestChar`/`TestSet` — is the same for every value
of that byte: two machines that agree on the program, the length, the
host callback and all bytes strictly below `limit` dispatch these four
opcodes identically there. -/
theorem byte_at_limit_independent (M M' : Machine) (st : State) (pi : Int)
    (hprog : M.prog = M'.prog) (hlen : M.len = M'.len) (hrt : M.rt = M'.rt)
    (hagree : ∀ i : Int, 0 ≤ i → i < M.len → M.get i = M'.get i)
    (hp : st.p = PC.idx pi) (hs : st.s = M.len) :
    ((M.prog pi).code = Opcode.IChar ∨ (M.prog pi).code = Opcode.ISet →
      step M st = doFail M st ∧ step M' st = step M st) ∧
    ((M.prog pi).code = Opcode.ITestChar ∨ (M.prog pi).code = Opcode.ITestSet →
      step M st = .next { st with p := .idx (pi + (M.prog (pi + 1)).offset) } .none ∧
      step M' st = step M st) := by
  have hnot : ¬ st.s < M.len := by rw [hs]; exact lt_irrefl _
  have hnot' : ¬ st.s < M'.len := by rw [hs, hlen]; exact lt_irrefl _
  have hdf := doFail_congr M M' st hlen
  constructor
  · rintro (hc | hc)
    · refine ⟨by simp [step, hp, hc, hnot], ?_⟩
      rw [show step M st = doFail M st from by simp [step, hp, hc, hnot]]
      rw [hdf]
      simp [step, hp, ← hprog, hc, hnot']
    · refine ⟨by simp [step, hp, hc, hnot], ?_⟩
      rw [show step M st = doFail M st from by simp [step, hp, hc, hnot]]
      rw [hdf]
      simp [step, hp, ← hprog, hc, hnot']
  · rintro (hc | hc)
    · refine ⟨by simp [step, hp, hc, hnot], ?_⟩
      rw [show step M st = StepOut.next { st with p := .idx (pi + (M.prog (pi + 1)).offset) }
        Ev.none from by simp [step, hp, hc, hnot]]
      simp [step, hp, ← hprog, hc, hnot']
    · refine ⟨by simp [step, hp, hc, hnot], ?_⟩
      rw [show step M st = StepOut.next { st with p := .idx (pi + (M.prog (pi + 1)).offset) }
        Ev.none from by simp [step, hp, hc, hnot]]
      simp [step, hp, ← hprog, hc, hnot']

/-- Witness for C10: the two machines genuinely disagree on the byte at
`limit`, yet `IChar` there fails on both. -/
theorem byte_at_limit_independent_witness :
    c10M1.get 2 = 55 ∧ c10M2.get 2 = 66 ∧ c10st.s = c10M1.len ∧
    step c10M1 c10st = doFail c10M1 c10st ∧ step c10M2 c10st = step c10M1 c10st :=
  ⟨by decide, by decide, by decide,
    ((byte_at_limit_independent c10M1 c10M2 c10st 0 rfl rfl rfl
      (fun i h1 h2 => by
        have : i < 2 := h2
        simp [c10M1, c10M2, this])
      rfl (by decide)).1 (Or.inl (by decide))).1,
    ((byte_at_limit_independent c10M1 c10M2 c10st 0 rfl rfl rfl
      (fun i h1 h2 => by
        have : i < 2 := h2
        simp [c10M1, c10M2, this])
      rfl (by decide)).1 (Or.inl (by decide))).2⟩

end LPVM
